import Mathlib

/-!
Shallow embedding of the scheduling / resource-identity core of the
`rust-voxels` repository, together with theorems settling the frozen claims.

Conventions used throughout:

* Machine integers (`usize`, `u64`) are modelled as `Nat`; overflow is made
  explicit where the source relies on it (`Instant::checked_add`).
* `Instant` is modelled as a `Nat` number of seconds bounded by
  `instantMax`; `Duration` values are `Nat` seconds, with
  `Duration::MAX` a value strictly larger than `instantMax`, so that
  `Instant::now().checked_add(Duration::MAX)` returns `None` exactly as on
  the real platform.
* `Uuid::new_v4()` and `HandleT::new()` produce globally fresh identifiers;
  they are modelled by a monotone counter threaded through the state.
* Fallible code (Rust panics: `unwrap`, `expect`, `todo!`, arithmetic
  underflow of an unsigned counter in a checked build) is modelled with an
  explicit `PanicOr` result type; `PanicOr.panic` marks the panic.
* Rust's `BinaryHeap` is a max-heap; it is modelled as a list kept sorted in
  descending order of the source's `Ord for ResourceReference`, so `peek`
  is the head of the list and `push` is ordered insertion.  The position of
  equal-key entries is unspecified in Rust; the model puts a new entry after
  existing entries with the same key.
* `HashMap` / `HashSet` are modelled as association lists / lists of keys,
  with the operations the source actually performs.
-/

/-- Result of running code that may hit a Rust panic. -/
inductive PanicOr (α : Type) where
  | panic
  | ok (val : α)
deriving DecidableEq, Repr

/-- Association-list lookup, modelling `HashMap::get`. -/
def lookupKey {κ α : Type} [DecidableEq κ] : List (κ × α) → κ → Option α
  | [], _ => none
  | (k, v) :: t, q => if q = k then some v else lookupKey t q

/-- Association-list insert-or-replace, modelling `HashMap::insert`. -/
def insertKey {κ α : Type} [DecidableEq κ] : List (κ × α) → κ → α → List (κ × α)
  | [], k, v => [(k, v)]
  | (k', v') :: t, k, v => if k = k' then (k, v) :: t else (k', v') :: insertKey t k v

/-- Association-list removal, modelling `HashMap::remove`. -/
def eraseKey {κ α : Type} [DecidableEq κ] : List (κ × α) → κ → List (κ × α)
  | [], _ => []
  | (k', v') :: t, k => if k = k' then t else (k', v') :: eraseKey t k

/-! ## Time model (`std::time::Instant`, `std::time::Duration`)

`src/src/resource.rs` computes `Instant::now().checked_add(duration)`.
On the real platform `Duration::MAX` overflows any `Instant`, so the
`Forever` lifetime always produces `deletion_time == None`. -/

/-- Largest representable `Instant` (seconds).  Any value with
`instantMax < durationMax` reproduces the overflow behaviour. -/
def instantMax : Nat := 2 ^ 63

/-- Model of `Duration::MAX` in whole seconds (`u64::MAX`). -/
def durationMax : Nat := 2 ^ 64 - 1

/-- Model of `Instant::checked_add`: `none` on overflow past the largest instant. -/
def checkedAdd (now d : Nat) : Option Nat :=
  if now + d ≤ instantMax then some (now + d) else none

/-! ## `ResourceLifetime` and the `LIFETIMES` table (resource.rs 194-222) -/

/-- Model of `ResourceLifetime` from `src/src/resource.rs`. -/
inductive ResourceLifetime where
  | None
  | Short
  | Medium
  | Long
  | Forever
deriving DecidableEq, Repr

/-- Delay in seconds associated to each lifetime class by
`ResourceReferenceManager::LIFETIMES` (resource.rs lines 216-222);
the source stores `Duration::ZERO / 3s / 60s / 300s / Duration::MAX` and
looks the entry up with `find`, which always succeeds. -/
def lifetimeDelay : ResourceLifetime → Nat
  | .None => 0
  | .Short => 3
  | .Medium => 60
  | .Long => 5 * 60
  | .Forever => durationMax

/-! ## `ResourceReference` and its `Ord` (resource.rs 292-330) -/

/-- Model of `ResourceReference` (resource.rs lines 292-298); handles are `Nat`. -/
structure ResourceReference where
  reference_count : Nat
  resource : Nat
  lifetime : ResourceLifetime
  deletion_time : Option Nat
deriving DecidableEq, Repr

/-- Sort key realising `impl Ord for ResourceReference`
(resource.rs lines 318-330): an entry without a deletion time compares
greater than any entry with one; otherwise entries compare by
deletion time. -/
def refKey (r : ResourceReference) : Nat :=
  match r.deletion_time with
  | none => instantMax + durationMax + 1
  | some t => t

/-- Model of `BinaryHeap::push` on the max-heap, modelled as insertion into a list
sorted by `refKey` in descending order. -/
def heapPush (e : ResourceReference) : List ResourceReference → List ResourceReference
  | [] => [e]
  | h :: t => if refKey h < refKey e then e :: h :: t else h :: heapPush e t

/-! ## `ResourceReferenceManager` (resource.rs 209-290) -/

/-- State of `ResourceReferenceManager`: `all_resources` is the
`HashMap<ElementHandle, ResourceReference>`, `active` the
`HashSet<ResourceReference>` (hashed and compared by handle only, so only
handles are kept), `inactive` the `BinaryHeap<ResourceReference>` in
descending `refKey` order (max first). -/
structure RefMgr where
  all : List (Nat × ResourceReference)
  active : List Nat
  inactive : List ResourceReference
deriving DecidableEq, Repr

/-- Model of `ResourceReferenceManager::new`. -/
def RefMgr.new : RefMgr := ⟨[], [], []⟩

/-- Model of `HashSet::insert` keyed by handle: no duplicate is stored. -/
def insertActive (h : Nat) (l : List Nat) : List Nat :=
  if h ∈ l then l else h :: l

/-- Model of `ResourceReferenceManager::activate` (resource.rs lines 244-250):
increments the reference count (`expect`ing the handle to exist) and
inserts a copy of the reference into the active set. -/
def RefMgr.activate (s : RefMgr) (h : Nat) : PanicOr RefMgr :=
  match lookupKey s.all h with
  | none => .panic
  | some r =>
      let r' := { r with reference_count := r.reference_count + 1 }
      .ok { s with all := insertKey s.all h r', active := insertActive h s.active }

/-- Model of `ResourceReferenceManager::create` (resource.rs lines 232-242):
registers the reference when unseen (reference count `0`, no deletion
time), then activates it. -/
def RefMgr.create (s : RefMgr) (h : Nat) (lt : ResourceLifetime) : PanicOr RefMgr :=
  let s' :=
    if (lookupKey s.all h).isSome then s
    else { s with all := insertKey s.all h ⟨0, h, lt, none⟩ }
  s'.activate h

/-- Model of `ResourceReferenceManager::deactivate` (resource.rs lines 252-272):
decrements the reference count (`u64` underflow on an inactive handle is a
checked-build panic, modelled as `panic`); on reaching zero, removes the
handle from the active set and pushes onto the eviction heap an entry whose
deletion time is `Instant::now().checked_add(delay(lifetime))`. -/
def RefMgr.deactivate (s : RefMgr) (h : Nat) (now : Nat) : PanicOr RefMgr :=
  match lookupKey s.all h with
  | none => .panic
  | some r =>
      match r.reference_count with
      | 0 => .panic
      | n + 1 =>
          let r' := { r with reference_count := n }
          let s' := { s with all := insertKey s.all h r' }
          if n = 0 then
            .ok { s' with
                  active := s'.active.erase h,
                  inactive := heapPush
                    ⟨0, r.resource, r.lifetime, checkedAdd now (lifetimeDelay r.lifetime)⟩
                    s'.inactive }
          else .ok s'

/-- Loop body of `ResourceReferenceManager::upkeep` (resource.rs lines
274-289): while the heap's top entry has an elapsed deletion time
(`deletion_time.unwrap() <= now`, a panic when the top entry has no
deletion time), pop it; entries absent from the active set are removed
from `all_resources` and collected for destruction. -/
def upkeepGo (now : Nat) (active : List Nat) :
    List ResourceReference → List (Nat × ResourceReference) → List Nat →
    PanicOr (List Nat × List ResourceReference × List (Nat × ResourceReference))
  | [], all, acc => .ok (acc.reverse, [], all)
  | e :: rest, all, acc =>
      match e.deletion_time with
      | none => .panic
      | some t =>
          if t ≤ now then
            if e.resource ∈ active then
              upkeepGo now active rest all acc
            else
              upkeepGo now active rest (eraseKey all e.resource) (e.resource :: acc)
          else .ok (acc.reverse, e :: rest, all)

/-- Model of `ResourceReferenceManager::upkeep`: returns the handles to destroy and
the updated manager. -/
def RefMgr.upkeep (s : RefMgr) (now : Nat) : PanicOr (List Nat × RefMgr) :=
  match upkeepGo now s.active s.inactive s.all [] with
  | .panic => .panic
  | .ok (out, inactive', all') => .ok (out, { s with inactive := inactive', all := all' })

/-! ## Call traces over the reference manager -/

/-- One external call to the reference manager.  `now` is the value of
`Instant::now()` at that call. -/
inductive MgrOp where
  | create (h : Nat) (lt : ResourceLifetime)
  | activate (h : Nat)
  | deactivate (h : Nat) (now : Nat)
  | upkeep (now : Nat)
deriving DecidableEq, Repr

/-- Apply one call; `upkeep` additionally yields handles for destruction. -/
def MgrOp.apply (s : RefMgr) : MgrOp → PanicOr (RefMgr × List Nat)
  | .create h lt =>
      match s.create h lt with
      | .panic => .panic
      | .ok s' => .ok (s', [])
  | .activate h =>
      match s.activate h with
      | .panic => .panic
      | .ok s' => .ok (s', [])
  | .deactivate h now =>
      match s.deactivate h now with
      | .panic => .panic
      | .ok s' => .ok (s', [])
  | .upkeep now =>
      match s.upkeep now with
      | .panic => .panic
      | .ok (out, s') => .ok (s', out)

/-- Run a call trace, accumulating every handle any `upkeep` returned for
destruction.  A panic aborts the run. -/
def runMgr (s : RefMgr) : List MgrOp → PanicOr (RefMgr × List Nat)
  | [] => .ok (s, [])
  | op :: ops =>
      match op.apply s with
      | .panic => .panic
      | .ok (s', out) =>
          match runMgr s' ops with
          | .panic => .panic
          | .ok (s'', outs) => .ok (s'', out ++ outs)

/-! ## `ResourceManager::upkeep` destruction batching (resource.rs 133-150)

The handler's `destroy` calls are modelled by collecting the destroyed
resources in a list; a resource is an opaque value of type `α` (the
sparse-set removal of each eligible handle is modelled separately by the
`SparseSet` development below). -/

/-- Model of `ResourceManager::RESOURCES_TO_DESTROY_PER_UPKEEP` (resource.rs 111). -/
def RESOURCES_TO_DESTROY_PER_UPKEEP : Nat := 10

/-- First loop of `ResourceManager::upkeep`: each resource handed back by
the reference manager is pushed onto `resources_being_destroyed`, except
that when the buffer already holds the per-upkeep quota the resource is
destroyed immediately.  Returns `(buffer, destroyed-immediately)`. -/
def upkeepBufferPhase {α : Type} (buffer : List α) (eligible : List α) :
    List α × List α :=
  eligible.foldl
    (fun (st : List α × List α) r =>
      if st.1.length = RESOURCES_TO_DESTROY_PER_UPKEEP then
        (st.1, st.2 ++ [r])
      else
        (st.1 ++ [r], st.2))
    (buffer, [])

/-- Second loop of `ResourceManager::upkeep`: pops
`min(quota, buffer.len())` resources from the end of the buffer and
destroys them. -/
def upkeepDrainPhase {α : Type} (buffer : List α) : List α × List α :=
  let k := min RESOURCES_TO_DESTROY_PER_UPKEEP buffer.length
  (buffer.reverse.take k, (buffer.reverse.drop k).reverse)

/-- Model of `ResourceManager::upkeep` (resource.rs lines 133-150), restricted to
its destruction bookkeeping: given the buffer carried over from earlier
calls and the resources the reference manager reported eligible, returns
`(all resources passed to handler.destroy this call, new buffer)`. -/
def managerUpkeep {α : Type} (buffer : List α) (eligible : List α) :
    List α × List α :=
  let (buf, direct) := upkeepBufferPhase buffer eligible
  let (drained, buf') := upkeepDrainPhase buf
  (direct ++ drained, buf')

/-! ## `SparseSet` (src/src/sparse_set.rs)

`ElementHandle` is its wrapped `usize`.  The `sparse` vector has fixed
length `capacity + 1` and is only ever indexed below that length in the
scenarios covered by the claims, so it is modelled as a total function
`Nat → Nat`; `dense` and `dense_objects` are growable vectors, modelled as
lists. -/

/-- Model of `SparseSet` (sparse_set.rs lines 34-39). -/
structure SparseSet (T : Type) where
  sparse : Nat → Nat
  dense : List Nat
  dense_objects : List T
  tombstone : Nat

/-- Model of `Vec::swap` on a list; out-of-range indices (a Rust panic) leave the
list unchanged — the claims only exercise in-range swaps. -/
def listSwap {α : Type} (l : List α) (i j : Nat) : List α :=
  match l[i]?, l[j]? with
  | some a, some b => (l.set i b).set j a
  | _, _ => l

/-- Model of `SparseSet::new` (sparse_set.rs lines 42-54): every sparse slot holds
the tombstone `length`. -/
def SparseSet.new (T : Type) (length : Nat) : SparseSet T :=
  ⟨fun _ => length, [], [], length⟩

/-- Model of `SparseSet::contains` (sparse_set.rs lines 83-87). -/
def SparseSet.contains {T : Type} (s : SparseSet T) (element : Nat) : Bool :=
  decide (element < s.tombstone) &&
    decide (s.sparse element < s.dense.length) &&
    decide (s.sparse element ≠ s.tombstone)

/-- Model of `SparseSet::push` (sparse_set.rs lines 56-64): inserts only when the
handle is absent; an existing handle keeps its stored value. -/
def SparseSet.push {T : Type} (s : SparseSet T) (element_id : Nat) (element : T) :
    SparseSet T :=
  if s.contains element_id then s
  else
    { s with
      sparse := fun x => if x = element_id then s.dense.length else s.sparse x,
      dense := s.dense ++ [element_id],
      dense_objects := s.dense_objects ++ [element] }

/-- Model of `SparseSet::remove` (sparse_set.rs lines 66-81): swap-remove.  The
source swaps the removed entry with the last dense entry, swaps the two
sparse slots (`last` and `element_id`), overwrites `sparse[element_id]`
with the tombstone and pops.  Returns the pair the source returns together
with the updated set. -/
def SparseSet.remove {T : Type} (s : SparseSet T) (element_id : Nat) :
    (Nat × Option T) × SparseSet T :=
  if s.contains element_id then
    let size := s.dense.length - 1
    let last := (s.dense.getLast?).getD 0
    let pos := s.sparse element_id
    let dense1 := listSwap s.dense size pos
    let objs1 := listSwap s.dense_objects size pos
    let sparse1 := fun x =>
      if x = element_id then s.tombstone
      else if x = last then pos
      else s.sparse x
    (((dense1.getLast?).getD 0, objs1.getLast?),
      { sparse := sparse1,
        dense := dense1.dropLast,
        dense_objects := objs1.dropLast,
        tombstone := s.tombstone })
  else ((s.tombstone, none), s)

/-- Model of `SparseSet::len` (sparse_set.rs lines 114-116). -/
def SparseSet.len {T : Type} (s : SparseSet T) : Nat := s.dense.length

/-- Model of `SparseSet::get_all_elements` (sparse_set.rs lines 110-112): iterates
the *values* stored in the sparse vector (slots `0..=capacity`) and keeps
those that are not the tombstone. -/
def SparseSet.get_all_elements {T : Type} (s : SparseSet T) : List Nat :=
  ((List.range (s.tombstone + 1)).map s.sparse).filter (fun v => v ≠ s.tombstone)

/-- Model of `impl Drop for ResourceManager` (resource.rs lines 99-107): removes
every handle `get_all_elements` reports and destroys the removed resource,
`unwrap`ping the returned `Option`.  Returns the resources destroyed. -/
def managerDrop {T : Type} (s : SparseSet T) : PanicOr (List T) :=
  go s.get_all_elements s []
where
  go : List Nat → SparseSet T → List T → PanicOr (List T)
    | [], _, acc => .ok acc.reverse
    | h :: t, st, acc =>
        match st.remove h with
        | ((_, none), _) => .panic
        | ((_, some v), st') => go t st' (v :: acc)

/-! ## Sequences of arena operations (for claim C8) -/

/-- One mutating arena call. -/
inductive ArenaOp (T : Type) where
  | push (h : Nat) (v : T)
  | remove (h : Nat)
deriving DecidableEq, Repr

/-- The handle an operation touches. -/
def ArenaOp.handle {T : Type} : ArenaOp T → Nat
  | .push h _ => h
  | .remove h => h

/-- Apply one arena call (the value `remove` returns is dropped). -/
def ArenaOp.apply {T : Type} (s : SparseSet T) : ArenaOp T → SparseSet T
  | .push h v => s.push h v
  | .remove h => (s.remove h).2

/-- Run a sequence of arena calls from the freshly constructed set. -/
def runArena {T : Type} (capacity : Nat) (ops : List (ArenaOp T)) : SparseSet T :=
  ops.foldl ArenaOp.apply (SparseSet.new T capacity)

/-- The set of live handles a sequence of calls leaves behind:
`push` inserts, `remove` erases. -/
def arenaModel {T : Type} (ops : List (ArenaOp T)) : Finset Nat :=
  ops.foldl
    (fun acc op =>
      match op with
      | .push h _ => insert h acc
      | .remove h => acc.erase h)
    ∅

/-- The representation invariant of `SparseSet` stated by the spec's
ArenaSlot data model: every sparse slot holds either the tombstone or a
valid dense index, and `sparse`/`dense` invert each other on live
handles (all of which lie below the capacity). -/
def ArenaInv (T : Type) (cap : Nat) (s : SparseSet T) : Prop :=
  s.tombstone = cap ∧
  (∀ i a, s.dense[i]? = some a → s.sparse a = i ∧ a < cap) ∧
  (∀ h, h < cap → s.sparse h ≠ cap → s.dense[s.sparse h]? = some h)

/-! ## `HandleMap` (src/src/render_graph/handle_map.rs) and the
`ResourceManager` name/path lookups (resource.rs 152-165)

`Uuid`-valued handles are `Nat`s; `HandleT::new()` freshness is supplied
by the caller (the render graph threads a counter). -/

/-- Model of `HandleMap` (handle_map.rs lines 22-27). -/
structure HandleMap (α : Type) where
  string_map : List (String × Nat)
  handle_map : List (Nat × α)
  handle_to_string_map : List (Nat × String)
deriving Repr

/-- Model of `HandleMap::new`. -/
def HandleMap.new (α : Type) : HandleMap α := ⟨[], [], []⟩

/-- Model of `HandleMap::add` (handle_map.rs lines 39-47); `fresh` plays the role
of the newly generated `HandleT::new()`. -/
def HandleMap.add {α : Type} (m : HandleMap α) (fresh : Nat) (object : α)
    (string_id : Option String) : HandleMap α :=
  match string_id with
  | some id =>
      { string_map := insertKey m.string_map id fresh,
        handle_map := insertKey m.handle_map fresh object,
        handle_to_string_map := insertKey m.handle_to_string_map fresh id }
  | none => { m with handle_map := insertKey m.handle_map fresh object }

/-- Model of `HandleMap::get_from_handle` (handle_map.rs lines 53-55). -/
def HandleMap.get_from_handle {α : Type} (m : HandleMap α) (handle : Nat) : Option α :=
  lookupKey m.handle_map handle

/-- Model of `HandleMap::get_from_string` (handle_map.rs lines 49-51): a miss in
either map yields `none` — a recoverable result. -/
def HandleMap.get_from_string {α : Type} (m : HandleMap α) (string_id : String) :
    Option α :=
  match lookupKey m.string_map string_id with
  | none => none
  | some h => m.get_from_handle h

/-- The lookup maps of `ResourceManager` (resource.rs lines 87-97);
uuids and element handles are `Nat`s. -/
structure RMLookup where
  resource_id_map : List (Nat × Nat)
  name_id_map : List (String × Nat)
  path_id_map : List (String × Nat)
deriving Repr

/-- Model of `ResourceManager::get_from_uuid` (resource.rs lines 162-165): the map
miss `unwrap`s, a panic.  (Construction of the returned smart handle and
its `activate` side effect belong to the reference-manager model.) -/
def RMLookup.get_from_uuid (m : RMLookup) (uuid : Nat) : PanicOr Nat :=
  match lookupKey m.resource_id_map uuid with
  | none => .panic
  | some id => .ok id

/-- Model of `ResourceManager::get_from_name` (resource.rs lines 157-160):
`unwrap`s the name-map lookup, a panic on an unregistered name. -/
def RMLookup.get_from_name (m : RMLookup) (name : String) : PanicOr Nat :=
  match lookupKey m.name_id_map name with
  | none => .panic
  | some uuid => m.get_from_uuid uuid

/-- Model of `ResourceManager::get_from_path` (resource.rs lines 152-155):
`unwrap`s the path-map lookup, a panic on an unregistered path. -/
def RMLookup.get_from_path (m : RMLookup) (path : String) : PanicOr Nat :=
  match lookupKey m.path_id_map path with
  | none => .panic
  | some uuid => m.get_from_uuid uuid

/-! ## Render graph (src/src/render_graph.rs, pass_builder.rs, resource.rs,
compiled_graph.rs)

Handles and uuids are drawn from one monotone counter `next` (every
`Uuid::new_v4()` / `HandleT::new()` is globally fresh).  `petgraph`'s
`Graph` is modelled by the vertex list (node index = position) and the two
edge lists the source maintains in lockstep. -/

/-- Model of `render_graph::resource::Resource` (render_graph/resource.rs 26-30);
`Id` is its `global_id` uuid plus optional string id. -/
inductive GResource where
  | Persistent (global_id : Nat) (string_id : Option String)
  | Dynamic (uuid : Nat)
deriving DecidableEq, Repr

/-- Model of `Resource::into_persistent` (render_graph/resource.rs lines 55-63). -/
def GResource.into_persistent : GResource → GResource
  | .Persistent g s => .Persistent g s
  | .Dynamic u => .Persistent u none

/-- Model of `pass_builder::PassResource` (pass_builder.rs lines 5-10). -/
inductive PassResource where
  | OnlyInput (h : Nat)
  | OnlyOutput (h : Option Nat)
  | InputAndOutput (h : Nat)
deriving DecidableEq, Repr

/-- Model of `PassResource::is_output` (pass_builder.rs lines 13-19). -/
def PassResource.is_output : PassResource → Bool
  | .OnlyOutput _ => true
  | .InputAndOutput _ => true
  | .OnlyInput _ => false

/-- Model of `PassResource::is_new_resource` (pass_builder.rs lines 29-35). -/
def PassResource.is_new_resource : PassResource → Bool
  | .OnlyOutput none => true
  | _ => false

/-- Model of `PassResource::resource_handle` (pass_builder.rs lines 37-43). -/
def PassResource.resource_handle : PassResource → Option Nat
  | .OnlyOutput r => r
  | .OnlyInput r => some r
  | .InputAndOutput r => some r

/-- Model of `RenderPassBuilder` (pass_builder.rs lines 46-54). -/
structure RenderPassBuilder where
  label : Option String
  colour_attachments : List PassResource
  depth_stencil : Option PassResource
  vertex_buffer : Option PassResource
  index_buffer : Option PassResource
  pipeline : Nat
deriving DecidableEq, Repr

/-- Model of `render_graph::Vertex` (render_graph.rs lines 21-25). -/
inductive GVertex where
  | Red (h : Nat)
  | Blue (h : Nat)
deriving DecidableEq, Repr

/-- Model of `render_graph::VertexHandle` (render_graph.rs lines 27-31):
`node_index` plus the registry handle. -/
structure VertexHandle where
  node_index : Nat
  handle : Nat
deriving DecidableEq, Repr

/-- Model of `RenderGraph` (render_graph.rs lines 80-87); shaders play no part in
the claims and pipeline payloads are opaque backend data, kept as `Unit`.
`fwd`/`rev` are `RenderGraphMeta`'s forward and edge-reversed graphs. -/
structure RenderGraph where
  next : Nat
  pipelines : HandleMap Unit
  passes : HandleMap RenderPassBuilder
  resources : HandleMap GResource
  vertices : List GVertex
  fwd : List (Nat × Nat)
  rev : List (Nat × Nat)
  vertex_handle_map : List (Nat × Nat)
deriving Repr

/-- Model of `RenderGraph::new` (render_graph.rs lines 90-99). -/
def RenderGraph.new : RenderGraph :=
  ⟨0, HandleMap.new Unit, HandleMap.new RenderPassBuilder, HandleMap.new GResource,
    [], [], [], []⟩

/-- Model of `RenderGraphMeta::add_edge` (render_graph.rs lines 68-71): the forward
graph gains `from → to`, the reverse graph `to → from`. -/
def RenderGraph.add_edge (g : RenderGraph) (f t : Nat) : RenderGraph :=
  { g with fwd := g.fwd ++ [(f, t)], rev := g.rev ++ [(t, f)] }

/-- Model of `RenderGraph::add_pipeline` (render_graph.rs lines 105-117), with the
layout/shader payload elided. -/
def RenderGraph.add_pipeline (g : RenderGraph) (id : Option String) :
    Nat × RenderGraph :=
  let h := g.next
  (h, { g with next := g.next + 1, pipelines := g.pipelines.add h () id })

/-- Model of `RenderGraph::add_resource` (render_graph.rs lines 176-186): registers
the resource value under a fresh handle, appends a `Red` vertex and maps
the fresh handle to it. -/
def RenderGraph.add_resource (g : RenderGraph) (resource : GResource) :
    VertexHandle × RenderGraph :=
  let h := g.next
  let sid := match resource with
    | .Persistent _ s => s
    | .Dynamic _ => none
  let node := g.vertices.length
  (⟨node, h⟩,
    { g with
      next := g.next + 1,
      resources := g.resources.add h resource sid,
      vertices := g.vertices ++ [.Red h],
      vertex_handle_map := insertKey g.vertex_handle_map h node })

/-- The attachment iterator of `add_render_pass` (render_graph.rs lines
123-126): colour attachments, then depth-stencil, vertex buffer, index
buffer. -/
def RenderPassBuilder.attachments (p : RenderPassBuilder) : List PassResource :=
  p.colour_attachments ++ p.depth_stencil.toList ++ p.vertex_buffer.toList ++
    p.index_buffer.toList

/-- The `new_outputs` pipeline of `add_render_pass` (render_graph.rs lines
130-135): for every output attachment needing a new resource, draw a fresh
uuid, build a `Dynamic` resource, and (`inspect`) register it in the
resource registry under another fresh handle. -/
def newOutputsStep (g : RenderGraph) (atts : List PassResource) :
    List GResource × RenderGraph :=
  (atts.filter (fun a => a.is_output && a.is_new_resource)).foldl
    (fun (st : List GResource × RenderGraph) _ =>
      let g := st.2
      let u := g.next
      let r := GResource.Dynamic u
      let g := { g with next := g.next + 1 }
      let h := g.next
      let g := { g with next := g.next + 1, resources := g.resources.add h r none }
      (st.1 ++ [r], g))
    ([], g)

/-- Model of `RenderGraph::add_render_pass` (render_graph.rs lines 119-174).
Returns the pass vertex, the output vertex list and the updated graph. -/
def RenderGraph.add_render_pass (g : RenderGraph) (pass : RenderPassBuilder) :
    (VertexHandle × List VertexHandle) × RenderGraph :=
  -- pass registration and its Blue vertex
  let pass_handle := g.next
  let g := { g with
    next := g.next + 1,
    passes := g.passes.add pass_handle pass pass.label }
  let pass_node := g.vertices.length
  let g := { g with vertices := g.vertices ++ [.Blue pass_handle] }
  let atts := pass.attachments
  -- new resources for OnlyOutput(None) attachments
  let (new_outputs, g) := newOutputsStep g atts
  -- resource values behind output attachments that carry a handle
  let existing_outputs : List GResource :=
    ((atts.filter PassResource.is_output).filterMap PassResource.resource_handle).filterMap
      g.resources.get_from_handle
  -- attach the pass to its outputs: every value goes through add_resource
  let (outputs, g) :=
    (existing_outputs ++ new_outputs).foldl
      (fun (st : List VertexHandle × RenderGraph) r =>
        let (vh, g') := st.2.add_resource r
        (st.1 ++ [vh], g'))
      ([], g)
  let g := outputs.foldl (fun g' vh => g'.add_edge pass_node vh.node_index) g
  -- attach inputs: every attachment carrying a handle that maps to a vertex
  let g :=
    ((atts.filterMap PassResource.resource_handle).filterMap
        (lookupKey g.vertex_handle_map)).foldl
      (fun g' v => g'.add_edge v pass_node) g
  -- persistent promotion of the new outputs, attached as inputs
  let (promoted, g) :=
    new_outputs.foldl
      (fun (st : List VertexHandle × RenderGraph) r =>
        let (vh, g') := st.2.add_resource r.into_persistent
        (st.1 ++ [vh], g'))
      ([], g)
  let g := promoted.foldl (fun g' vh => g'.add_edge vh.node_index pass_node) g
  let pass_vertex : VertexHandle := ⟨pass_node, pass_handle⟩
  let g := { g with
    vertex_handle_map := insertKey g.vertex_handle_map pass_handle pass_node }
  ((pass_vertex, outputs), g)

/-! ## `CompiledGraph::render_from_graph` (compiled_graph.rs 65-141)

`petgraph::algo::toposort` returns some valid topological order of the
edge-reversed graph (ties implementation-defined); it is modelled by
Kahn's algorithm picking the smallest-index ready vertex.  The walk then
matches each vertex: a `Red` (resource) vertex hits the source's `todo!()`
— a panic; a `Blue` (pass) vertex `unwrap`s its pass and pipeline lookups
and hands the rest to the GPU backend (elided). -/

/-- No edge of `edges` with a still-remaining source enters `v`. -/
def noIncoming (edges : List (Nat × Nat)) (remaining : List Nat) (v : Nat) : Bool :=
  !(edges.any fun e => e.2 == v && remaining.contains e.1)

/-- Kahn's algorithm; `none` when a cycle blocks every remaining vertex
(the source `unwrap`s that case — a panic). -/
def kahnAux (edges : List (Nat × Nat)) :
    Nat → List Nat → List Nat → Option (List Nat)
  | 0, remaining, acc => if remaining.isEmpty then some acc.reverse else none
  | fuel + 1, remaining, acc =>
      match remaining.find? (noIncoming edges remaining) with
      | none => none
      | some v => kahnAux edges fuel (remaining.erase v) (v :: acc)

/-- A topological order of the `n`-vertex graph with edge list `edges`. -/
def kahn (n : Nat) (edges : List (Nat × Nat)) : Option (List Nat) :=
  kahnAux edges n (List.range n) []

/-- The topological order `render_from_graph` walks: the one of the
edge-reversed graph (compiled_graph.rs line 100). -/
def RenderGraph.topoOrder (g : RenderGraph) : Option (List Nat) :=
  kahn g.vertices.length g.rev

/-- Outcome of `CompiledGraph::render_from_graph`; each non-`rendered`
constructor marks a distinct panic site. -/
inductive RenderResult where
  | cycleUnwrap
  | todoResource
  | missingPass
  | missingPipeline
  | rendered (passes : List Nat)
deriving DecidableEq, Repr

/-- The vertex walk of `render_from_graph` (compiled_graph.rs lines
104-138): a `Red` vertex is `todo!()`; a `Blue` vertex resolves its pass
and pipeline (`unwrap`) and records the pass (pipeline/render-pass
creation is backend work). -/
def renderWalk (g : RenderGraph) : List Nat → List Nat → RenderResult
  | [], acc => .rendered acc.reverse
  | i :: rest, acc =>
      match g.vertices[i]? with
      | none => .missingPass
      | some (.Red _) => .todoResource
      | some (.Blue pass_handle) =>
          match g.passes.get_from_handle pass_handle with
          | none => .missingPass
          | some pass =>
              match g.pipelines.get_from_handle pass.pipeline with
              | none => .missingPipeline
              | some _ => renderWalk g rest (pass_handle :: acc)

/-- Model of `CompiledGraph::render_from_graph` (compiled_graph.rs lines 65-141),
restricted to its graph traversal. -/
def renderFromGraph (g : RenderGraph) : RenderResult :=
  match g.topoOrder with
  | none => .cycleUnwrap
  | some order => renderWalk g order []

/-! ## The end-to-end scenario of claim C1

Declare pass A with a single `OnlyOutput(None)` colour attachment, then
pass B with `OnlyInput(X)` where `X` is the resource handle pass A's
output vertex carries. -/

/-- The registered pipeline both passes use. -/
def scenarioPipeline : Nat × RenderGraph := RenderGraph.new.add_pipeline none

/-- Pass A: one `OnlyOutput(None)` colour attachment. -/
def scenarioPassA : RenderPassBuilder :=
  ⟨some "A", [.OnlyOutput none], none, none, none, scenarioPipeline.1⟩

/-- Result of declaring pass A. -/
def scenarioStepA : (VertexHandle × List VertexHandle) × RenderGraph :=
  scenarioPipeline.2.add_render_pass scenarioPassA

/-- The handle of resource X: the one pass A's output vertex carries. -/
def scenarioX : Nat := (scenarioStepA.1.2.headD ⟨0, 0⟩).handle

/-- Pass B: one `OnlyInput(X)` colour attachment. -/
def scenarioPassB : RenderPassBuilder :=
  ⟨some "B", [.OnlyInput scenarioX], none, none, none, scenarioPipeline.1⟩

/-- Result of declaring pass B. -/
def scenarioStepB : (VertexHandle × List VertexHandle) × RenderGraph :=
  scenarioStepA.2.add_render_pass scenarioPassB

/-- The finished two-pass graph. -/
def scenarioGraph : RenderGraph := scenarioStepB.2

/-- Node index of pass A's vertex. -/
def scenarioNodeA : Nat := scenarioStepA.1.1.node_index

/-- Node index of pass B's vertex. -/
def scenarioNodeB : Nat := scenarioStepB.1.1.node_index

/-! ## Projections and traces used by the claim statements -/

/-- Reference count recorded for a handle. -/
def RefMgr.rcOf (s : RefMgr) (h : Nat) : Option Nat :=
  (lookupKey s.all h).map ResourceReference.reference_count

/-- Lifetime class recorded for a handle. -/
def RefMgr.lifetimeOf (s : RefMgr) (h : Nat) : Option ResourceLifetime :=
  (lookupKey s.all h).map ResourceReference.lifetime

/-- Eviction-queue entries pending for a handle. -/
def RefMgr.entriesFor (s : RefMgr) (h : Nat) : List ResourceReference :=
  s.inactive.filter (fun e => e.resource = h)

/-- Number of `activate` calls on `h` in a trace (`create` also activates,
resource.rs line 241, and counts here). -/
def countActivate (h : Nat) : List MgrOp → Nat
  | [] => 0
  | .activate h' :: t => (if h' = h then 1 else 0) + countActivate h t
  | .create h' _ :: t => (if h' = h then 1 else 0) + countActivate h t
  | _ :: t => countActivate h t

/-- Number of `deactivate` calls on `h` in a trace. -/
def countDeactivate (h : Nat) : List MgrOp → Nat
  | [] => 0
  | .deactivate h' _ :: t => (if h' = h then 1 else 0) + countDeactivate h t
  | _ :: t => countDeactivate h t

/-- The failing trace of claim C3: two `Short` resources released at
different times, then one upkeep between the two deletion times. -/
def c3Trace : List MgrOp :=
  [.create 1 .Short, .deactivate 1 2, .create 2 .Short, .deactivate 2 97, .upkeep 10]

/-- The manager state just before the upkeep of `c3Trace`. -/
def c3PreState : PanicOr (RefMgr × List Nat) :=
  runMgr RefMgr.new (c3Trace.take 4)

/-- Claim C10's failing arena: capacity 10, one resource registered under
handle 1 (the `ResourceManager` draws handles starting at 1,
resource.rs lines 171-173). -/
def c10Set : SparseSet Nat := (SparseSet.new Nat 10).push 1 42

/-- The manager state an ok run ends in (`RefMgr.new` on a panic). -/
def runEndState (r : PanicOr (RefMgr × List Nat)) : RefMgr :=
  match r with
  | .ok (s, _) => s
  | .panic => RefMgr.new

/-- The state just before the upkeep of `c3Trace`. -/
def c3Pre : RefMgr := runEndState c3PreState

/-- The state after the whole of `c3Trace`. -/
def c3Post : RefMgr := runEndState (runMgr RefMgr.new c3Trace)

/-- Claim C2's probe pass: a single `OnlyOutput(Some(X))` colour
attachment, where `X` is the existing resource handle pass A returned. -/
def c2Pass : RenderPassBuilder :=
  ⟨none, [.OnlyOutput (some scenarioX)], none, none, none, scenarioPipeline.1⟩

/-- Declaring the probe pass on the one-pass graph. -/
def c2Step : (VertexHandle × List VertexHandle) × RenderGraph :=
  scenarioStepA.2.add_render_pass c2Pass

/-- Claim C9's empty lookup state. -/
def c9Mgr : RMLookup := ⟨[], [], []⟩

/-! # Theorems -/

/-! ## Claim C1 (code_bug evidence) -/

/-- C1.  For the spec's two-pass scenario (pass A with `OnlyOutput(None)`
producing X, pass B with `OnlyInput(X)`), `render_from_graph` does not
treat the producerless resource vertices as externally supplied bindings:
it hits `todo!()` (a panic) at the first resource vertex of the traversal,
allocating nothing.  Moreover the topological order of the edge-reversed
graph it walks visits pass B's vertex (node 3) before pass A's vertex
(node 0), not A before B as claimed: the reverse graph has the path
B-vertex → X-vertex → A-vertex. -/
theorem c1_render_from_graph_panics_and_orders_B_before_A :
    renderFromGraph scenarioGraph = RenderResult.todoResource ∧
    scenarioGraph.topoOrder = some [3, 1, 0, 2] ∧
    scenarioNodeB = 3 ∧ scenarioNodeA = 0 ∧
    [3, 1, 0, 2].indexOf scenarioNodeB < [3, 1, 0, 2].indexOf scenarioNodeA := by
  refine ⟨by decide, by decide, by decide, by decide, by decide⟩

/-! ## Claim C3 (code_bug evidence) -/

/-- C3.  `BinaryHeap` is a max-heap, so `upkeep`'s `peek` sees the entry
with the *latest* deletion time.  After creating and releasing handle 1
(deletion time 5) and handle 2 (deletion time 100), an upkeep at
`now = 10` returns nothing at all — although handle 1's entry has elapsed
(5 ≤ 10) and handle 1 is not active — because the top of the max-heap is
the unelapsed entry with deletion time 100.  The claim says handle 1 is
returned. -/
theorem c3_upkeep_misses_elapsed_entry_behind_later_one :
    c3PreState = .ok (c3Pre, []) ∧
    (⟨0, 1, .Short, some 5⟩ : ResourceReference) ∈ c3Pre.inactive ∧
    (5 : Nat) ≤ 10 ∧ 1 ∉ c3Pre.active ∧
    runMgr RefMgr.new c3Trace = .ok (c3Post, []) ∧
    (⟨0, 1, .Short, some 5⟩ : ResourceReference) ∈ c3Post.inactive := by
  refine ⟨by decide, by decide, by decide, by decide, by decide, by decide⟩

/-! ## Claim C10 (code_bug evidence) -/

/-- C10.  `SparseSet::get_all_elements` iterates the *values* stored in
the sparse vector (dense positions) instead of the indices holding them
(the live handles).  With one resource registered under handle 1
(`ResourceManager` hands out handles starting at 1), it reports `[0]`
rather than `[1]`; `Drop for ResourceManager` then removes the absent
handle 0, gets `(tombstone, None)` back and panics on `unwrap`, so the
registered resource (value 42) is never passed to `handler.destroy`. -/
theorem c10_drop_enumerates_dense_indices_and_panics :
    c10Set.get_all_elements = [0] ∧
    c10Set.contains 1 = true ∧ c10Set.contains 0 = false ∧
    managerDrop c10Set = .panic := by
  refine ⟨by decide, by decide, by decide, by decide⟩

/-! ## Claim C2 (counterexample) -/

/-- C2 fails on the code: declaring a pass with `OnlyOutput(Some(X))` for
the existing resource handle X (whose vertex is node 1) allocates a brand
new resource vertex (node 4, fresh handle 7) besides the pass vertex
(node 3) — the vertex count grows by 2, not 1 — and the pass's output
edge `(3, 4)` attaches it to that new vertex, not to X's existing vertex:
no edge `(3, 1)` exists. -/
theorem c2_counterexample_existing_output_allocates_new_vertex :
    lookupKey scenarioStepA.2.vertex_handle_map scenarioX = some 1 ∧
    scenarioStepA.2.vertices.length = 3 ∧
    c2Step.2.vertices.length = 5 ∧
    c2Step.1.2 = [⟨4, 7⟩] ∧
    c2Step.1.1.node_index = 3 ∧
    (3, 4) ∈ c2Step.2.fwd ∧ (3, 1) ∉ c2Step.2.fwd := by
  refine ⟨by decide, by decide, by decide, by decide, by decide, by decide, by decide⟩

/-! ## Claim C5 (counterexample) -/

/-- C5 fails on the code: when eleven resources become eligible in one
call, `ResourceManager::upkeep` destroys all eleven in that same call (the
eleventh immediately, because the buffer already holds the quota of ten;
the buffered ten by the drain loop) — more than the per-call quota — and
the buffer carries nothing over to the next call. -/
theorem c5_counterexample_upkeep_exceeds_quota :
    (managerUpkeep ([] : List Nat) (List.range 11)).1.length = 11 ∧
    ¬((managerUpkeep ([] : List Nat) (List.range 11)).1.length ≤
        RESOURCES_TO_DESTROY_PER_UPKEEP) ∧
    (managerUpkeep ([] : List Nat) (List.range 11)).2 = [] := by
  refine ⟨by decide, by decide, by decide⟩

/-! ## Claim C9 (counterexample) -/

/-- C9 fails on the code: with no names or paths registered,
`ResourceManager::get_from_name` and `get_from_path` `unwrap` the map
miss and panic instead of returning a recoverable "not found". -/
theorem c9_counterexample_lookup_miss_panics :
    lookupKey c9Mgr.name_id_map "missing" = none ∧
    lookupKey c9Mgr.path_id_map "missing" = none ∧
    c9Mgr.get_from_name "missing" = .panic ∧
    c9Mgr.get_from_path "missing" = .panic := by
  refine ⟨by decide, by decide, by decide, by decide⟩

/-! ## Helper lemmas on the container models -/

theorem lookupKey_insertKey_self {κ α : Type} [DecidableEq κ]
    (l : List (κ × α)) (k : κ) (v : α) :
    lookupKey (insertKey l k v) k = some v := by
  induction l with
  | nil => simp [insertKey, lookupKey]
  | cons p t ih =>
      obtain ⟨k', v'⟩ := p
      by_cases hk : k = k' <;> simp [insertKey, lookupKey, hk, ih]

theorem lookupKey_insertKey_ne {κ α : Type} [DecidableEq κ]
    (l : List (κ × α)) (k k' : κ) (v : α) (h : k ≠ k') :
    lookupKey (insertKey l k' v) k = lookupKey l k := by
  induction l with
  | nil => simp [insertKey, lookupKey, h]
  | cons p t ih =>
      obtain ⟨k'', v''⟩ := p
      by_cases hk : k' = k''
      · subst hk
        simp [insertKey, lookupKey, h]
      · by_cases hq : k = k'' <;> simp [insertKey, lookupKey, hk, hq, ih]

theorem lookupKey_eraseKey_ne {κ α : Type} [DecidableEq κ]
    (l : List (κ × α)) (k k' : κ) (h : k ≠ k') :
    lookupKey (eraseKey l k') k = lookupKey l k := by
  induction l with
  | nil => simp [eraseKey]
  | cons p t ih =>
      obtain ⟨k'', v''⟩ := p
      by_cases hk : k' = k''
      · subst hk
        simp [eraseKey, lookupKey, h]
      · by_cases hq : k = k'' <;> simp [eraseKey, lookupKey, hk, hq, ih]

theorem mem_insertKey {κ α : Type} [DecidableEq κ]
    (l : List (κ × α)) (k : κ) (v : α) (p : κ × α)
    (h : p ∈ insertKey l k v) : p = (k, v) ∨ p ∈ l := by
  induction l with
  | nil => simpa [insertKey] using h
  | cons q t ih =>
      obtain ⟨k', v'⟩ := q
      by_cases hk : k = k'
      · simp only [insertKey, if_pos hk] at h
        rcases List.mem_cons.mp h with h | h
        · exact Or.inl h
        · exact Or.inr (List.mem_cons_of_mem _ h)
      · simp only [insertKey, if_neg hk] at h
        rcases List.mem_cons.mp h with h | h
        · exact Or.inr (List.mem_cons.mpr (Or.inl h))
        · rcases ih h with h | h
          · exact Or.inl h
          · exact Or.inr (List.mem_cons_of_mem _ h)

theorem mem_eraseKey {κ α : Type} [DecidableEq κ]
    (l : List (κ × α)) (k : κ) (p : κ × α)
    (h : p ∈ eraseKey l k) : p ∈ l := by
  induction l with
  | nil => simp [eraseKey] at h
  | cons q t ih =>
      obtain ⟨k', v'⟩ := q
      by_cases hk : k = k'
      · simp only [eraseKey, if_pos hk] at h
        exact List.mem_cons_of_mem _ h
      · simp only [eraseKey, if_neg hk] at h
        rcases List.mem_cons.mp h with h | h
        · exact List.mem_cons.mpr (Or.inl h)
        · exact List.mem_cons_of_mem _ (ih h)

theorem heapPush_perm (e : ResourceReference) (l : List ResourceReference) :
    (heapPush e l).Perm (e :: l) := by
  induction l with
  | nil => simp [heapPush]
  | cons x t ih =>
      by_cases hx : refKey x < refKey e
      · simp [heapPush, hx]
      · simp only [heapPush, if_neg hx]
        exact (ih.cons x).trans (List.Perm.swap e x t)

theorem mem_heapPush {e e' : ResourceReference} {l : List ResourceReference}
    (h : e' ∈ heapPush e l) : e' = e ∨ e' ∈ l := by
  have := (heapPush_perm e l).mem_iff.mp h
  simpa using this

theorem mem_insertActive_self (h : Nat) (l : List Nat) : h ∈ insertActive h l := by
  by_cases hm : h ∈ l <;> simp [insertActive, hm]

/-! ## Claim C9 (amended theorem and witness) -/

/-- C9 amended.  A miss on `HandleMap::get_from_string` is recoverable
(`None`), but `ResourceManager::get_from_name` / `get_from_path` `unwrap`
the miss of an unregistered name or path and panic (the manager is not
mutated before the panic — both take `&self` and die inside the
lookup expression). -/
theorem c9_amended_manager_lookup_miss_panics {α : Type}
    (m : RMLookup) (hm : HandleMap α) (name path s : String)
    (hname : lookupKey m.name_id_map name = none)
    (hpath : lookupKey m.path_id_map path = none)
    (hs : lookupKey hm.string_map s = none) :
    m.get_from_name name = .panic ∧
    m.get_from_path path = .panic ∧
    hm.get_from_string s = none := by
  refine ⟨?_, ?_, ?_⟩
  · simp [RMLookup.get_from_name, hname]
  · simp [RMLookup.get_from_path, hpath]
  · simp [HandleMap.get_from_string, hs]

/-- Witness for the amended C9 at the empty lookup state. -/
theorem c9_amended_witness :
    c9Mgr.get_from_name "missing" = .panic ∧
    c9Mgr.get_from_path "missing" = .panic ∧
    (HandleMap.new Nat).get_from_string "missing" = none :=
  c9_amended_manager_lookup_miss_panics c9Mgr (HandleMap.new Nat)
    "missing" "missing" "missing" (by decide) (by decide) (by decide)

/-! ## Claim C5 (amended theorem) -/

theorem upkeepBufferPhase_foldl_len {α : Type} (eligible : List α) :
    ∀ (buf dir : List α), buf.length ≤ RESOURCES_TO_DESTROY_PER_UPKEEP →
    (eligible.foldl
        (fun (st : List α × List α) r =>
          if st.1.length = RESOURCES_TO_DESTROY_PER_UPKEEP then
            (st.1, st.2 ++ [r])
          else
            (st.1 ++ [r], st.2))
        (buf, dir)).1.length =
        min RESOURCES_TO_DESTROY_PER_UPKEEP (buf.length + eligible.length) ∧
    (eligible.foldl
        (fun (st : List α × List α) r =>
          if st.1.length = RESOURCES_TO_DESTROY_PER_UPKEEP then
            (st.1, st.2 ++ [r])
          else
            (st.1 ++ [r], st.2))
        (buf, dir)).2.length =
        dir.length + (buf.length + eligible.length -
          min RESOURCES_TO_DESTROY_PER_UPKEEP (buf.length + eligible.length)) := by
  induction eligible with
  | nil =>
      intro buf dir hb
      simp only [List.foldl_nil, List.length_nil, Nat.add_zero]
      omega
  | cons a t ih =>
      intro buf dir hb
      by_cases hfull : buf.length = RESOURCES_TO_DESTROY_PER_UPKEEP
      · have := ih buf (dir ++ [a]) hb
        simp only [List.foldl_cons, if_pos hfull]
        rcases this with ⟨h1, h2⟩
        refine ⟨by rw [h1]; simp [List.length_cons]; omega, ?_⟩
        rw [h2]
        simp only [List.length_append, List.length_cons, List.length_nil]
        omega
      · have hlt : buf.length < RESOURCES_TO_DESTROY_PER_UPKEEP := by omega
        have := ih (buf ++ [a]) dir (by simp [List.length_append]; omega)
        simp only [List.foldl_cons, if_neg hfull]
        rcases this with ⟨h1, h2⟩
        refine ⟨by rw [h1]; simp [List.length_append, List.length_cons]; omega, ?_⟩
        rw [h2]
        simp only [List.length_append, List.length_cons, List.length_nil]
        omega

/-- C5 amended.  Starting from the empty buffer (the buffer is empty when
the manager is constructed and, by the second clause, after every call),
one `ResourceManager::upkeep` passes *every* resource eligible in that
call to `handler.destroy` — at most the quota of ten through the buffered
drain loop and all the excess immediately when the buffer is full — and
leaves the buffer empty, so nothing is carried to a later call. -/
theorem c5_amended_upkeep_destroys_all_eligible {α : Type} (eligible : List α) :
    (managerUpkeep [] eligible).1.length = eligible.length ∧
    (managerUpkeep [] eligible).2 = [] := by
  have h := upkeepBufferPhase_foldl_len eligible [] []
    (by simp [RESOURCES_TO_DESTROY_PER_UPKEEP])
  rcases h with ⟨h1, h2⟩
  have hble : (upkeepBufferPhase ([] : List α) eligible).1.length ≤
      RESOURCES_TO_DESTROY_PER_UPKEEP := by
    unfold upkeepBufferPhase
    rw [h1]; omega
  constructor
  · unfold managerUpkeep upkeepDrainPhase
    simp only [List.length_append, List.length_take, List.length_reverse]
    unfold upkeepBufferPhase at *
    rw [h1] at hble ⊢
    rw [h2]
    simp only [List.length_nil, Nat.zero_add] at *
    omega
  · unfold managerUpkeep upkeepDrainPhase
    simp only []
    have : min RESOURCES_TO_DESTROY_PER_UPKEEP
        (upkeepBufferPhase ([] : List α) eligible).1.length =
        (upkeepBufferPhase ([] : List α) eligible).1.length :=
      Nat.min_eq_right hble
    rw [this]
    simp

/-! ## Claim C4 (confirmed) -/

theorem upkeepGo_ok_not_active (now : Nat) (active : List Nat) :
    ∀ (q : List ResourceReference) (all : List (Nat × ResourceReference))
      (acc out : List Nat) (q' : List ResourceReference)
      (all' : List (Nat × ResourceReference)),
    upkeepGo now active q all acc = .ok (out, q', all') →
    (∀ x ∈ acc, x ∉ active) →
    ∀ x ∈ out, x ∉ active := by
  intro q
  induction q with
  | nil =>
      intro all acc out q' all' hok hacc x hx
      simp only [upkeepGo, PanicOr.ok.injEq, Prod.mk.injEq] at hok
      obtain ⟨h1, -, -⟩ := hok
      subst h1
      exact hacc x (List.mem_reverse.mp hx)
  | cons e rest ih =>
      intro all acc out q' all' hok hacc x hx
      simp only [upkeepGo] at hok
      split at hok
      · exact absurd hok (by simp)
      · split at hok
        · split at hok
          · exact ih _ _ _ _ _ hok hacc x hx
          · rename_i hmem
            refine ih _ _ _ _ _ hok ?_ x hx
            intro y hy
            rcases List.mem_cons.mp hy with hy | hy
            · rw [hy]; exact hmem
            · exact hacc y hy
        · simp only [PanicOr.ok.injEq, Prod.mk.injEq] at hok
          obtain ⟨h1, -, -⟩ := hok
          subst h1
          exact hacc x (List.mem_reverse.mp hx)

/-- C4.  If a handle with an entry pending in the eviction queue (with
deletion time `t`) is activated before `upkeep` runs, an `upkeep` at any
`now` — in particular at or after `t` — does not return that handle for
destruction: `activate` puts the handle in the active set, and the upkeep
loop only collects entries absent from the active set. -/
theorem c4_reactivated_handle_not_destroyed
    (s : RefMgr) (h : Nat) (r e : ResourceReference) (t now : Nat)
    (s1 : RefMgr) (out : List Nat) (s2 : RefMgr)
    (hcreated : lookupKey s.all h = some r)
    (hpending : e ∈ s.inactive) (hres : e.resource = h)
    (hdt : e.deletion_time = some t) (helapsed : t ≤ now)
    (hact : s.activate h = .ok s1)
    (hup : s1.upkeep now = .ok (out, s2)) :
    h ∉ out := by
  have hin : h ∈ s1.active := by
    simp only [RefMgr.activate, hcreated] at hact
    have hs1 : s1 = { s with
        all := insertKey s.all h { r with reference_count := r.reference_count + 1 },
        active := insertActive h s.active } := by
      cases hact; rfl
    rw [hs1]
    exact mem_insertActive_self h s.active
  simp only [RefMgr.upkeep] at hup
  rcases hgo : upkeepGo now s1.active s1.inactive s1.all [] with _ | ⟨o, q', a'⟩
  · rw [hgo] at hup; exact absurd hup (by simp)
  · rw [hgo] at hup
    simp only [PanicOr.ok.injEq, Prod.mk.injEq] at hup
    obtain ⟨ho, -⟩ := hup
    intro hmem
    exact upkeepGo_ok_not_active now s1.active s1.inactive s1.all [] o q' a' hgo
      (by simp) h (ho ▸ hmem) hin

/-- Witness for C4: handle 1, created `Short`, queued with deletion time 5,
reactivated, then upkeep at `now = 10 ≥ 5` returns nothing. -/
theorem c4_witness : (1 : Nat) ∉ ([] : List Nat) :=
  c4_reactivated_handle_not_destroyed
    ⟨[(1, ⟨0, 1, .Short, none⟩)], [], [⟨0, 1, .Short, some 5⟩]⟩ 1
    ⟨0, 1, .Short, none⟩ ⟨0, 1, .Short, some 5⟩ 5 10
    ⟨[(1, ⟨1, 1, .Short, none⟩)], [1], [⟨0, 1, .Short, some 5⟩]⟩ []
    ⟨[(1, ⟨1, 1, .Short, none⟩)], [1], []⟩
    (by decide) (by decide) (by decide) (by decide) (by decide)
    (by decide) (by decide)

/-! ## Claim C7 (confirmed) -/

theorem runMgr_rc_aux (h : Nat) :
    ∀ (ops : List MgrOp) (s : RefMgr) (r : ResourceReference),
    lookupKey s.all h = some r →
    (∀ op ∈ ops, op = MgrOp.activate h ∨ ∃ now, op = MgrOp.deactivate h now) →
    (∀ n, countDeactivate h (ops.take n) ≤
        countActivate h (ops.take n) + r.reference_count) →
    ∃ s' r', runMgr s ops = .ok (s', []) ∧ lookupKey s'.all h = some r' ∧
      r'.reference_count + countDeactivate h ops =
        r.reference_count + countActivate h ops ∧
      r'.lifetime = r.lifetime := by
  intro ops
  induction ops with
  | nil =>
      intro s r hr _ _
      exact ⟨s, r, rfl, hr, by simp [countActivate, countDeactivate], rfl⟩
  | cons op t ih =>
      intro s r hr hshape hprefix
      rcases hshape op (List.mem_cons_self op t) with hop | ⟨now, hop⟩
      · -- op = activate h
        subst hop
        have hact : s.activate h = .ok { s with
            all := insertKey s.all h { r with reference_count := r.reference_count + 1 },
            active := insertActive h s.active } := by
          simp [RefMgr.activate, hr]
        set s1 : RefMgr := { s with
            all := insertKey s.all h { r with reference_count := r.reference_count + 1 },
            active := insertActive h s.active } with hs1
        have hr1 : lookupKey s1.all h =
            some { r with reference_count := r.reference_count + 1 } :=
          lookupKey_insertKey_self s.all h _
        have hpre1 : ∀ n, countDeactivate h (t.take n) ≤
            countActivate h (t.take n) + (r.reference_count + 1) := by
          intro n
          have := hprefix (n + 1)
          simp [List.take_succ_cons, countActivate, countDeactivate] at this
          omega
        obtain ⟨s', r', hrun, hr', hcount, hlife⟩ :=
          ih s1 _ hr1 (fun op hm => hshape op (List.mem_cons_of_mem _ hm)) hpre1
        refine ⟨s', r', ?_, hr', ?_, hlife⟩
        · simp [runMgr, MgrOp.apply, hact, hrun]
        · simp [countActivate, countDeactivate] at hcount ⊢
          omega
      · -- op = deactivate h now
        subst hop
        have hrc : 1 ≤ r.reference_count := by
          have := hprefix 1
          simp [List.take_succ_cons, countActivate, countDeactivate] at this
          omega
        obtain ⟨m, hm⟩ : ∃ m, r.reference_count = m + 1 :=
          ⟨r.reference_count - 1, by omega⟩
        have hall : ∀ s1 : RefMgr, s.deactivate h now = .ok s1 →
            s1.all = insertKey s.all h { r with reference_count := m } := by
          intro s1 hde
          simp only [RefMgr.deactivate, hr, hm] at hde
          by_cases hm0 : m = 0
          · rw [if_pos hm0] at hde
            cases hde; rfl
          · rw [if_neg hm0] at hde
            cases hde; rfl
        have hde : ∃ s1, s.deactivate h now = .ok s1 := by
          simp only [RefMgr.deactivate, hr, hm]
          by_cases hm0 : m = 0
          · rw [if_pos hm0]; exact ⟨_, rfl⟩
          · rw [if_neg hm0]; exact ⟨_, rfl⟩
        obtain ⟨s1, hde⟩ := hde
        have hr1 : lookupKey s1.all h = some { r with reference_count := m } := by
          rw [hall s1 hde]; exact lookupKey_insertKey_self s.all h _
        have hpre1 : ∀ n, countDeactivate h (t.take n) ≤
            countActivate h (t.take n) + m := by
          intro n
          have := hprefix (n + 1)
          rw [hm] at this
          simp [List.take_succ_cons, countActivate, countDeactivate] at this
          omega
        obtain ⟨s', r', hrun, hr', hcount, hlife⟩ :=
          ih s1 _ hr1 (fun op hm' => hshape op (List.mem_cons_of_mem _ hm')) hpre1
        refine ⟨s', r', ?_, hr', ?_, hlife⟩
        · simp [runMgr, MgrOp.apply, hde, hrun]
        · simp [countActivate, countDeactivate] at hcount ⊢
          omega

/-- C7.  (a) Starting from a handle freshly registered by `create` (map
entry with reference count 0; `create`'s own internal `activate` is the
first activation of the trace), any panic-free-by-prefix sequence of N
`activate` and M `deactivate` calls on the handle leaves
`reference_count = N - M`.  (b) A `deactivate` that brings the count from
1 to 0 pushes exactly one new entry on the eviction queue, carrying
`deletion_time = Instant::now().checked_add(delay(lifetime))`;
(c) a `deactivate` that leaves the count positive pushes nothing;
(d) for every lifetime class except `Forever` (whose `Duration::MAX` delay
overflows), `checked_add` is literally `now + delay(class)`. -/
theorem c7_reference_count_is_activations_minus_deactivations :
    (∀ (h : Nat) (lt : ResourceLifetime) (ops : List MgrOp),
      (∀ op ∈ ops, op = MgrOp.activate h ∨ ∃ now, op = MgrOp.deactivate h now) →
      (∀ n, countDeactivate h (ops.take n) ≤ countActivate h (ops.take n)) →
      runMgr ⟨[(h, ⟨0, h, lt, none⟩)], [], []⟩ ops =
        .ok (runEndState (runMgr ⟨[(h, ⟨0, h, lt, none⟩)], [], []⟩ ops), []) ∧
      (runEndState (runMgr ⟨[(h, ⟨0, h, lt, none⟩)], [], []⟩ ops)).rcOf h =
        some (countActivate h ops - countDeactivate h ops)) ∧
    (∀ (s : RefMgr) (h : Nat) (r : ResourceReference) (now : Nat) (s'' : RefMgr),
      lookupKey s.all h = some r → r.reference_count = 1 →
      s.deactivate h now = .ok s'' →
      s''.inactive.Perm
        (⟨0, r.resource, r.lifetime, checkedAdd now (lifetimeDelay r.lifetime)⟩ ::
          s.inactive)) ∧
    (∀ (s : RefMgr) (h : Nat) (r : ResourceReference) (now : Nat) (s'' : RefMgr),
      lookupKey s.all h = some r → 2 ≤ r.reference_count →
      s.deactivate h now = .ok s'' → s''.inactive = s.inactive) ∧
    (∀ (now : Nat) (lt : ResourceLifetime), lt ≠ .Forever →
      now + lifetimeDelay lt ≤ instantMax →
      checkedAdd now (lifetimeDelay lt) = some (now + lifetimeDelay lt)) := by
  refine ⟨?_, ?_, ?_, ?_⟩
  · intro h lt ops hshape hprefix
    have h0 : lookupKey (⟨[(h, ⟨0, h, lt, none⟩)], [], []⟩ : RefMgr).all h =
        some ⟨0, h, lt, none⟩ := by simp [lookupKey]
    obtain ⟨s', r', hrun, hr', hcount, -⟩ :=
      runMgr_rc_aux h ops _ _ h0 hshape (by simpa using hprefix)
    rw [hrun]
    refine ⟨by simp [runEndState], ?_⟩
    simp only [runEndState, RefMgr.rcOf, hr', Option.map_some']
    simp only at hcount
    congr 1
    omega
  · intro s h r now s'' hr hrc hde
    simp only [RefMgr.deactivate, hr, hrc] at hde
    split at hde
    · cases hde
      exact heapPush_perm _ s.inactive
    · simp_all
  · intro s h r now s'' hr hrc hde
    obtain ⟨m, hm⟩ : ∃ m, r.reference_count = m + 2 :=
      ⟨r.reference_count - 2, by omega⟩
    simp only [RefMgr.deactivate, hr, hm] at hde
    split at hde
    · rename_i hzero
      exact absurd hzero (by omega)
    · cases hde
      rfl
  · intro now lt hlt hle
    simp [checkedAdd, hle]

/-- Witness for C7: handle 1, `Short` lifetime, trace
`activate; deactivate at t=2` (N = 1, M = 1, final count 0), plus concrete
instances of the queue-entry clauses. -/
theorem c7_witness :
    (runMgr ⟨[(1, ⟨0, 1, .Short, none⟩)], [], []⟩
        [MgrOp.activate 1, MgrOp.deactivate 1 2] =
      .ok (runEndState (runMgr ⟨[(1, ⟨0, 1, .Short, none⟩)], [], []⟩
        [MgrOp.activate 1, MgrOp.deactivate 1 2]), []) ∧
      (runEndState (runMgr ⟨[(1, ⟨0, 1, .Short, none⟩)], [], []⟩
        [MgrOp.activate 1, MgrOp.deactivate 1 2])).rcOf 1 =
        some (countActivate 1 [MgrOp.activate 1, MgrOp.deactivate 1 2] -
          countDeactivate 1 [MgrOp.activate 1, MgrOp.deactivate 1 2])) ∧
    (⟨[(1, ⟨0, 1, .Short, none⟩)], [], [⟨0, 1, .Short, some 5⟩]⟩ : RefMgr).inactive.Perm
      (⟨0, 1, .Short, checkedAdd 2 (lifetimeDelay .Short)⟩ :: ([] : List ResourceReference)) ∧
    (⟨[(1, ⟨1, 1, .Short, none⟩)], [1], []⟩ : RefMgr).inactive = [] ∧
    checkedAdd 7 (lifetimeDelay .Medium) = some (7 + lifetimeDelay .Medium) := by
  refine ⟨?_, ?_, ?_, ?_⟩
  · refine c7_reference_count_is_activations_minus_deactivations.1 1 .Short
      [MgrOp.activate 1, MgrOp.deactivate 1 2] ?_ ?_
    · intro op hop
      simp only [List.mem_cons, List.not_mem_nil, or_false] at hop
      rcases hop with rfl | rfl
      · exact Or.inl rfl
      · exact Or.inr ⟨2, rfl⟩
    · intro n
      match n with
      | 0 => decide
      | 1 => decide
      | n + 2 =>
          rw [List.take_of_length_le (by simp)]
          decide
  · exact c7_reference_count_is_activations_minus_deactivations.2.1
      ⟨[(1, ⟨1, 1, .Short, none⟩)], [1], []⟩ 1 ⟨1, 1, .Short, none⟩ 2
      ⟨[(1, ⟨0, 1, .Short, none⟩)], [], [⟨0, 1, .Short, some 5⟩]⟩
      (by decide) (by decide) (by decide)
  · exact c7_reference_count_is_activations_minus_deactivations.2.2.1
      ⟨[(1, ⟨2, 1, .Short, none⟩)], [1], []⟩ 1 ⟨2, 1, .Short, none⟩ 0
      ⟨[(1, ⟨1, 1, .Short, none⟩)], [1], []⟩
      (by decide) (by decide) (by decide)
  · exact c7_reference_count_is_activations_minus_deactivations.2.2.2
      7 .Medium (by decide) (by decide)

/-! ## Claim C6 (confirmed) -/

theorem checkedAdd_durationMax (now : Nat) : checkedAdd now durationMax = none := by
  have h : instantMax < durationMax := by decide
  simp only [checkedAdd, ite_eq_right_iff]
  intro hle
  omega

theorem activate_effect (s s1 : RefMgr) (h' : Nat)
    (hact : s.activate h' = .ok s1) :
    ∃ rr, lookupKey s.all h' = some rr ∧
      s1.all = insertKey s.all h'
        { rr with reference_count := rr.reference_count + 1 } ∧
      s1.inactive = s.inactive := by
  simp only [RefMgr.activate] at hact
  rcases hl : lookupKey s.all h' with _ | rr
  · rw [hl] at hact; exact absurd hact (by simp)
  · rw [hl] at hact
    cases hact
    exact ⟨rr, rfl, rfl, rfl⟩

theorem upkeepGo_forever (now : Nat) (active : List Nat) (h : Nat) :
    ∀ (q : List ResourceReference) (all : List (Nat × ResourceReference))
      (acc out : List Nat) (q' : List ResourceReference)
      (all' : List (Nat × ResourceReference)),
    upkeepGo now active q all acc = .ok (out, q', all') →
    (∀ e ∈ q, e.resource = h → e.deletion_time = none) →
    (∀ x ∈ acc, x ≠ h) →
    (∀ x ∈ out, x ≠ h) ∧ (∀ e ∈ q', e ∈ q) ∧ (∀ p ∈ all', p ∈ all) ∧
      lookupKey all' h = lookupKey all h := by
  intro q
  induction q with
  | nil =>
      intro all acc out q' all' hok hq hacc
      simp only [upkeepGo, PanicOr.ok.injEq, Prod.mk.injEq] at hok
      obtain ⟨h1, h2, h3⟩ := hok
      subst h1; subst h2; subst h3
      exact ⟨fun x hx => hacc x (List.mem_reverse.mp hx),
        fun e he => absurd he (List.not_mem_nil e), fun p hp => hp, rfl⟩
  | cons e rest ih =>
      intro all acc out q' all' hok hq hacc
      simp only [upkeepGo] at hok
      split at hok
      · exact absurd hok (by simp)
      · rename_i t hdt
        have heres : e.resource ≠ h := by
          intro habs
          have := hq e (List.mem_cons_self e rest) habs
          rw [this] at hdt
          exact absurd hdt (by simp)
        split at hok
        · split at hok
          · obtain ⟨ho, hq', ha', hl⟩ := ih all acc out q' all' hok
              (fun e' he' => hq e' (List.mem_cons_of_mem _ he')) hacc
            exact ⟨ho, fun e' he' => List.mem_cons_of_mem _ (hq' e' he'), ha', hl⟩
          · obtain ⟨ho, hq', ha', hl⟩ := ih (eraseKey all e.resource)
              (e.resource :: acc) out q' all' hok
              (fun e' he' => hq e' (List.mem_cons_of_mem _ he'))
              (by
                intro y hy
                rcases List.mem_cons.mp hy with hy | hy
                · rw [hy]; exact heres
                · exact hacc y hy)
            refine ⟨ho, fun e' he' => List.mem_cons_of_mem _ (hq' e' he'),
              fun p hp => mem_eraseKey all e.resource p (ha' p hp), ?_⟩
            rw [hl]
            exact lookupKey_eraseKey_ne all h e.resource (Ne.symm heres)
        · simp only [PanicOr.ok.injEq, Prod.mk.injEq] at hok
          obtain ⟨h1, h2, h3⟩ := hok
          subst h1; subst h2; subst h3
          exact ⟨fun x hx => hacc x (List.mem_reverse.mp hx),
            fun e' he' => he', fun p hp => hp, rfl⟩

theorem lookupKey_mem {κ α : Type} [DecidableEq κ] :
    ∀ (l : List (κ × α)) (k : κ) (v : α), lookupKey l k = some v → (k, v) ∈ l := by
  intro l
  induction l with
  | nil => intro k v h; simp [lookupKey] at h
  | cons p t ih =>
      intro k v h
      obtain ⟨k0, v0⟩ := p
      by_cases hq : k = k0
      · simp only [lookupKey, if_pos hq] at h
        cases h
        subst hq
        exact List.mem_cons_self _ _
      · simp only [lookupKey, if_neg hq] at h
        exact List.mem_cons_of_mem _ (ih k v h)

theorem c6_apply (h : Nat) (s s' : RefMgr) (op : MgrOp) (out : List Nat)
    (hinv1 : ∃ r, lookupKey s.all h = some r ∧ r.lifetime = .Forever)
    (hinv2 : ∀ e ∈ s.inactive, e.resource = h → e.deletion_time = none)
    (hinv3 : ∀ p ∈ s.all, (p.2).resource = p.1)
    (happ : op.apply s = .ok (s', out)) :
    (∃ r, lookupKey s'.all h = some r ∧ r.lifetime = .Forever) ∧
    (∀ e ∈ s'.inactive, e.resource = h → e.deletion_time = none) ∧
    (∀ p ∈ s'.all, (p.2).resource = p.1) ∧
    h ∉ out := by
  obtain ⟨r, hr, hrlife⟩ := hinv1
  -- inserting an updated entry at key k preserves the map facts
  have hinsert : ∀ (k : Nat) (v : ResourceReference), v.resource = k →
      (k = h → v.lifetime = .Forever) →
      (∃ r', lookupKey (insertKey s.all k v) h = some r' ∧
        r'.lifetime = .Forever) ∧
      (∀ p ∈ insertKey s.all k v, (p.2).resource = p.1) := by
    intro k v hvres hvlife
    constructor
    · by_cases hk : k = h
      · subst hk
        exact ⟨v, lookupKey_insertKey_self s.all k v, hvlife rfl⟩
      · refine ⟨r, ?_, hrlife⟩
        rw [lookupKey_insertKey_ne s.all h k v (fun hh => hk hh.symm)]
        exact hr
    · intro p hp
      rcases mem_insertKey s.all k v p hp with hp | hp
      · rw [hp]; exact hvres
      · exact hinv3 p hp
  -- the common shape of create and activate: an activate on some state t
  -- whose map extends s.all only through earlier create bookkeeping
  cases op with
  | create h' lt =>
      simp only [MgrOp.apply] at happ
      rcases hc : RefMgr.create s h' lt with _ | s1
      · rw [hc] at happ; exact absurd happ (by simp)
      · rw [hc] at happ
        simp only [PanicOr.ok.injEq, Prod.mk.injEq] at happ
        obtain ⟨hs1, hout⟩ := happ
        subst hs1
        subst hout
        simp only [RefMgr.create] at hc
        by_cases hsome : (lookupKey s.all h').isSome
        · rw [if_pos hsome] at hc
          obtain ⟨rr, hrr, hall, hin⟩ := activate_effect s _ h' hc
          have hk : rr.resource = h' := by
            simpa using hinv3 (h', rr) (lookupKey_mem s.all h' rr hrr)
          rw [hall, hin]
          have hmain := hinsert h'
            { rr with reference_count := rr.reference_count + 1 }
            (by simpa using hk)
            (by
              intro hk'
              subst hk'
              rw [hr] at hrr
              cases hrr
              simpa using hrlife)
          exact ⟨hmain.1, hinv2, hmain.2, by simp⟩
        · rw [if_neg hsome] at hc
          have hne : h' ≠ h := by
            intro hh
            subst hh
            rw [hr] at hsome
            simp at hsome
          obtain ⟨rr, hrr, hall, hin⟩ := activate_effect _ _ h' hc
          simp only at hrr hall hin
          rw [lookupKey_insertKey_self] at hrr
          cases hrr
          rw [hall, hin]
          refine ⟨⟨r, ?_, hrlife⟩, hinv2, ?_, by simp⟩
          · rw [lookupKey_insertKey_ne _ h h' _ (fun hh => hne hh.symm),
              lookupKey_insertKey_ne s.all h h' _ (fun hh => hne hh.symm)]
            exact hr
          · intro p hp
            rcases mem_insertKey _ h' _ p hp with hp | hp
            · rw [hp]
            · rcases mem_insertKey s.all h' _ p hp with hp | hp
              · rw [hp]
              · exact hinv3 p hp
  | activate h' =>
      simp only [MgrOp.apply] at happ
      rcases hc : RefMgr.activate s h' with _ | s1
      · rw [hc] at happ; exact absurd happ (by simp)
      · rw [hc] at happ
        simp only [PanicOr.ok.injEq, Prod.mk.injEq] at happ
        obtain ⟨hs1, hout⟩ := happ
        subst hs1
        subst hout
        obtain ⟨rr, hrr, hall, hin⟩ := activate_effect s _ h' hc
        have hk : rr.resource = h' := by
          simpa using hinv3 (h', rr) (lookupKey_mem s.all h' rr hrr)
        rw [hall, hin]
        have hmain := hinsert h'
          { rr with reference_count := rr.reference_count + 1 }
          (by simpa using hk)
          (by
            intro hk'
            subst hk'
            rw [hr] at hrr
            cases hrr
            simpa using hrlife)
        exact ⟨hmain.1, hinv2, hmain.2, by simp⟩
  | deactivate h' now =>
      simp only [MgrOp.apply] at happ
      rcases hc : RefMgr.deactivate s h' now with _ | s1
      · rw [hc] at happ; exact absurd happ (by simp)
      · rw [hc] at happ
        simp only [PanicOr.ok.injEq, Prod.mk.injEq] at happ
        obtain ⟨hs1, hout⟩ := happ
        subst hs1
        subst hout
        simp only [RefMgr.deactivate] at hc
        split at hc
        · exact absurd hc (by simp)
        · rename_i rr hl
          split at hc
          · exact absurd hc (by simp)
          · rename_i n hrc
            have hk : rr.resource = h' := by
              simpa using hinv3 (h', rr) (lookupKey_mem s.all h' rr hl)
            have hlife' : h' = h → rr.lifetime = .Forever := by
              intro hk'
              subst hk'
              rw [hr] at hl
              cases hl
              simpa using hrlife
            have hmain := hinsert h' { rr with reference_count := n }
              (by simpa using hk) hlife'
            split at hc
            · cases hc
              refine ⟨hmain.1, ?_, hmain.2, by simp⟩
              intro e he hres
              rcases mem_heapPush he with he | he
              · subst he
                simp only at hres ⊢
                by_cases hh' : h' = h
                · rw [hlife' hh']
                  simp only [lifetimeDelay]
                  exact checkedAdd_durationMax now
                · exact absurd (hk ▸ hres) hh'
              · exact hinv2 e he hres
            · cases hc
              exact ⟨hmain.1, hinv2, hmain.2, by simp⟩
  | upkeep now =>
      simp only [MgrOp.apply] at happ
      rcases hc : RefMgr.upkeep s now with _ | ⟨o, s1⟩
      · rw [hc] at happ; exact absurd happ (by simp)
      · rw [hc] at happ
        simp only [PanicOr.ok.injEq, Prod.mk.injEq] at happ
        obtain ⟨hs1, hout⟩ := happ
        subst hs1
        subst hout
        simp only [RefMgr.upkeep] at hc
        rcases hgo : upkeepGo now s.active s.inactive s.all [] with _ | ⟨o', q', a'⟩
        · rw [hgo] at hc; exact absurd hc (by simp)
        · rw [hgo] at hc
          simp only [PanicOr.ok.injEq, Prod.mk.injEq] at hc
          obtain ⟨ho, hs1⟩ := hc
          subst ho
          subst hs1
          obtain ⟨hno, hq', ha', hl⟩ := upkeepGo_forever now s.active h
            s.inactive s.all [] o' q' a' hgo hinv2 (by simp)
          refine ⟨⟨r, by simpa [hl] using hr, hrlife⟩, ?_, ?_, ?_⟩
          · intro e he hres
            exact hinv2 e (hq' e he) hres
          · intro p hp
            exact hinv3 p (ha' p hp)
          · intro hmem
            exact hno h hmem rfl

theorem c6_run (h : Nat) :
    ∀ (ops : List MgrOp) (s : RefMgr) (s' : RefMgr) (outs : List Nat),
    (∃ r, lookupKey s.all h = some r ∧ r.lifetime = .Forever) →
    (∀ e ∈ s.inactive, e.resource = h → e.deletion_time = none) →
    (∀ p ∈ s.all, (p.2).resource = p.1) →
    runMgr s ops = .ok (s', outs) →
    h ∉ outs := by
  intro ops
  induction ops with
  | nil =>
      intro s s' outs _ _ _ hrun
      simp only [runMgr, PanicOr.ok.injEq, Prod.mk.injEq] at hrun
      obtain ⟨-, houts⟩ := hrun
      subst houts
      simp
  | cons op t ih =>
      intro s s' outs hinv1 hinv2 hinv3 hrun
      simp only [runMgr] at hrun
      rcases happ : op.apply s with _ | ⟨s1, out⟩
      · rw [happ] at hrun; exact absurd hrun (by simp)
      · rw [happ] at hrun
        simp only [] at hrun
        rcases hrest : runMgr s1 t with _ | ⟨s2, outs2⟩
        · rw [hrest] at hrun
          exact absurd hrun (by simp)
        · rw [hrest] at hrun
          simp only [PanicOr.ok.injEq, Prod.mk.injEq] at hrun
          obtain ⟨-, houts⟩ := hrun
          subst houts
          obtain ⟨hinv1', hinv2', hinv3', hnot⟩ :=
            c6_apply h s s1 op out hinv1 hinv2 hinv3 happ
          intro hmem
          rcases List.mem_append.mp hmem with hmem | hmem
          · exact hnot hmem
          · exact ih s1 s2 outs2 hinv1' hinv2' hinv3' hrest hmem

/-- C6.  A handle registered with the `Forever` lifetime class is never
returned by any `upkeep` of any call trace: every eviction-queue entry a
`Forever` handle can acquire carries `deletion_time = None`
(`Instant::now().checked_add(Duration::MAX)` overflows), and the upkeep
loop never collects an entry without a deletion time (it panics on it
instead of returning).  Hence the resource is destroyed only at manager
teardown. -/
theorem c6_forever_never_returned_by_upkeep
    (s : RefMgr) (h : Nat) (ops : List MgrOp) (s' : RefMgr) (outs : List Nat)
    (hforever : RefMgr.lifetimeOf s h = some .Forever)
    (hqueue : ∀ e ∈ s.inactive, e.resource = h → e.deletion_time = none)
    (hmap : ∀ p ∈ s.all, (p.2).resource = p.1)
    (hrun : runMgr s ops = .ok (s', outs)) :
    h ∉ outs := by
  obtain ⟨r, hr, hrl⟩ : ∃ r, lookupKey s.all h = some r ∧ r.lifetime = .Forever := by
    simp only [RefMgr.lifetimeOf] at hforever
    rcases hl : lookupKey s.all h with _ | r
    · rw [hl] at hforever; exact absurd hforever (by simp)
    · rw [hl] at hforever
      simp only [Option.map_some', Option.some.injEq] at hforever
      exact ⟨r, rfl, hforever⟩
  exact c6_run h ops s s' outs ⟨r, hr, hrl⟩ hqueue hmap hrun

/-- Witness for C6: handle 7 registered `Forever`; a second handle 9 with
`None` lifetime is created, released and collected by an upkeep, which
returns `[9]` — never 7. -/
theorem c6_witness : (7 : Nat) ∉ [9] :=
  c6_forever_never_returned_by_upkeep
    ⟨[(7, ⟨1, 7, .Forever, none⟩)], [7], []⟩ 7
    [.create 9 .None, .deactivate 9 3, .upkeep 10]
    ⟨[(7, ⟨1, 7, .Forever, none⟩)], [7], []⟩ [9]
    (by decide) (by decide) (by decide) (by decide)

/-! ## Claim C2 (amended theorem and witness) -/

/-- C2 amended.  (i) An `OnlyOutput(None)` attachment still yields a
freshly allocated resource vertex distinct from every existing vertex:
the returned output vertex sits at the brand-new node index
`|vertices| + 1` (right after the pass vertex) under a brand-new handle —
in fact the call also allocates a persistent-promotion vertex, growing
the graph by three vertices.  (ii) But an output attachment carrying an
existing handle h (`OnlyOutput(Some(h))` or `InputAndOutput(h)`) does
*not* reuse h's vertex: `add_render_pass` pushes the resource's value
through `add_resource` again, allocating a fresh vertex (node
`|vertices| + 1`, fresh handle) and attaching the pass's output edge to
that fresh vertex; only the input edge reaches h's existing vertex `n`. -/
theorem c2_amended_output_attachments_allocate_fresh_vertices :
    (∀ (g : RenderGraph) (lbl : Option String) (pl : Nat),
      ((g.add_render_pass ⟨lbl, [.OnlyOutput none], none, none, none, pl⟩).1.2 =
        [⟨g.vertices.length + 1, g.next + 3⟩]) ∧
      (g.add_render_pass ⟨lbl, [.OnlyOutput none], none, none, none, pl⟩).2.vertices.length =
        g.vertices.length + 3) ∧
    (∀ (g : RenderGraph) (lbl : Option String) (pl h n : Nat) (r : GResource)
      (a : PassResource),
      (a = .OnlyOutput (some h) ∨ a = .InputAndOutput h) →
      g.resources.get_from_handle h = some r →
      lookupKey g.vertex_handle_map h = some n →
      n < g.vertices.length →
      h < g.next →
      ((g.add_render_pass ⟨lbl, [a], none, none, none, pl⟩).1.2 =
        [⟨g.vertices.length + 1, g.next + 1⟩]) ∧
      (g.add_render_pass ⟨lbl, [a], none, none, none, pl⟩).2.vertices.length =
        g.vertices.length + 2 ∧
      (g.vertices.length, g.vertices.length + 1) ∈
        (g.add_render_pass ⟨lbl, [a], none, none, none, pl⟩).2.fwd ∧
      (n, g.vertices.length) ∈
        (g.add_render_pass ⟨lbl, [a], none, none, none, pl⟩).2.fwd ∧
      g.vertices.length + 1 ≠ n) := by
  constructor
  · intro g lbl pl
    simp [RenderGraph.add_render_pass, RenderPassBuilder.attachments, newOutputsStep,
      PassResource.is_output, PassResource.is_new_resource, PassResource.resource_handle,
      RenderGraph.add_resource, RenderGraph.add_edge, HandleMap.add,
      GResource.into_persistent]
  · intro g lbl pl h n r a ha hres hvmap hn hh
    have hne : h ≠ g.next + 1 := by omega
    rcases ha with rfl | rfl <;>
    · rcases r with ⟨gid, sid⟩ | u <;> [rcases sid with _ | sname; skip] <;>
      · simp [RenderGraph.add_render_pass, RenderPassBuilder.attachments, newOutputsStep,
          PassResource.is_output, PassResource.is_new_resource,
          PassResource.resource_handle, RenderGraph.add_resource, RenderGraph.add_edge,
          HandleMap.add, GResource.into_persistent, hres, hvmap,
          lookupKey_insertKey_ne _ _ _ _ hne,
          List.filterMap_cons_some, List.filterMap_nil]
        omega

/-- Witness for the amended C2, on the spec scenario: pass A's
`OnlyOutput(None)` (part i) over the one-pipeline graph, and the probe
pass writing to the existing resource X (part ii). -/
theorem c2_amended_witness :
    (((scenarioPipeline.2.add_render_pass
        ⟨some "A", [.OnlyOutput none], none, none, none, scenarioPipeline.1⟩).1.2 =
      [⟨scenarioPipeline.2.vertices.length + 1, scenarioPipeline.2.next + 3⟩]) ∧
      (scenarioPipeline.2.add_render_pass
        ⟨some "A", [.OnlyOutput none], none, none, none, scenarioPipeline.1⟩).2.vertices.length =
        scenarioPipeline.2.vertices.length + 3) ∧
    (((scenarioStepA.2.add_render_pass
        ⟨none, [.OnlyOutput (some scenarioX)], none, none, none,
          scenarioPipeline.1⟩).1.2 =
      [⟨scenarioStepA.2.vertices.length + 1, scenarioStepA.2.next + 1⟩]) ∧
      (scenarioStepA.2.add_render_pass
        ⟨none, [.OnlyOutput (some scenarioX)], none, none, none,
          scenarioPipeline.1⟩).2.vertices.length =
        scenarioStepA.2.vertices.length + 2 ∧
      (scenarioStepA.2.vertices.length, scenarioStepA.2.vertices.length + 1) ∈
        (scenarioStepA.2.add_render_pass
          ⟨none, [.OnlyOutput (some scenarioX)], none, none, none,
            scenarioPipeline.1⟩).2.fwd ∧
      (1, scenarioStepA.2.vertices.length) ∈
        (scenarioStepA.2.add_render_pass
          ⟨none, [.OnlyOutput (some scenarioX)], none, none, none,
            scenarioPipeline.1⟩).2.fwd ∧
      scenarioStepA.2.vertices.length + 1 ≠ 1) :=
  ⟨c2_amended_output_attachments_allocate_fresh_vertices.1 scenarioPipeline.2
      (some "A") scenarioPipeline.1,
    c2_amended_output_attachments_allocate_fresh_vertices.2 scenarioStepA.2
      none scenarioPipeline.1 scenarioX 1 (.Dynamic 2) (.OnlyOutput (some scenarioX))
      (Or.inl rfl) (by decide) (by decide) (by decide) (by decide)⟩

/-! ## Claim C8 (confirmed) -/

theorem arena_nodup {T : Type} {cap : Nat} {s : SparseSet T}
    (hinv : ArenaInv T cap s) : s.dense.Nodup := by
  obtain ⟨-, hB, -⟩ := hinv
  rw [List.nodup_iff_getElem?_ne_getElem?]
  intro i j hij hj heq
  have hjs : s.dense[j]? = some s.dense[j] := List.getElem?_eq_getElem hj
  have his : s.dense[i]? = some s.dense[j] := by rw [heq, hjs]
  have h1 := (hB i _ his).1
  have h2 := (hB j _ hjs).1
  omega

theorem arena_len_le {T : Type} {cap : Nat} {s : SparseSet T}
    (hinv : ArenaInv T cap s) : s.dense.length ≤ cap := by
  have hnd := arena_nodup hinv
  obtain ⟨-, hB, -⟩ := hinv
  have hsub : s.dense.toFinset ⊆ Finset.range cap := by
    intro x hx
    rw [List.mem_toFinset] at hx
    rw [List.mem_iff_getElem?] at hx
    obtain ⟨i, hi⟩ := hx
    exact Finset.mem_range.mpr (hB i x hi).2
  have := Finset.card_le_card hsub
  rwa [List.toFinset_card_of_nodup hnd, Finset.card_range] at this

theorem arena_len_lt {T : Type} {cap : Nat} {s : SparseSet T} {h : Nat}
    (hinv : ArenaInv T cap s) (hh : h < cap) (hn : h ∉ s.dense) :
    s.dense.length < cap := by
  have hnd := arena_nodup hinv
  obtain ⟨-, hB, -⟩ := hinv
  have hsub : s.dense.toFinset ⊆ (Finset.range cap).erase h := by
    intro x hx
    rw [List.mem_toFinset] at hx
    refine Finset.mem_erase.mpr ⟨?_, ?_⟩
    · intro hxh; exact hn (hxh ▸ hx)
    · rw [List.mem_iff_getElem?] at hx
      obtain ⟨i, hi⟩ := hx
      exact Finset.mem_range.mpr (hB i x hi).2
  have hcard := Finset.card_le_card hsub
  rw [List.toFinset_card_of_nodup hnd,
    Finset.card_erase_of_mem (Finset.mem_range.mpr hh), Finset.card_range] at hcard
  omega

theorem arena_contains_iff_mem {T : Type} {cap : Nat} {s : SparseSet T}
    (hinv : ArenaInv T cap s) (h : Nat) :
    s.contains h = true ↔ h ∈ s.dense := by
  obtain ⟨hT, hB, hC⟩ := hinv
  simp only [SparseSet.contains, Bool.and_eq_true, decide_eq_true_eq]
  constructor
  · rintro ⟨⟨hh, -⟩, hnt⟩
    rw [List.mem_iff_getElem?]
    exact ⟨s.sparse h, hC h (hT ▸ hh) (hT ▸ hnt)⟩
  · intro hm
    rw [List.mem_iff_getElem?] at hm
    obtain ⟨i, hi⟩ := hm
    obtain ⟨hsp, hcap⟩ := hB i h hi
    have hil : i < s.dense.length := by
      by_contra hge
      rw [List.getElem?_eq_none (by omega)] at hi
      exact absurd hi (by simp)
    refine ⟨⟨hT ▸ hcap, by omega⟩, ?_⟩
    rw [hT, hsp]
    have := arena_len_le ⟨hT, hB, hC⟩
    omega

theorem arena_push_step {T : Type} {cap : Nat} {s : SparseSet T} {h : Nat} (v : T)
    (hinv : ArenaInv T cap s) (hh : h < cap) :
    ArenaInv T cap (s.push h v) ∧
    (∀ x, (s.push h v).contains x = true ↔ (x = h ∨ s.contains x = true)) ∧
    (s.push h v).dense.length =
      (if s.contains h then s.dense.length else s.dense.length + 1) := by
  by_cases hc : s.contains h = true
  · rw [SparseSet.push, if_pos hc]
    refine ⟨hinv, ?_, by rw [if_pos hc]⟩
    intro x
    constructor
    · exact fun hx => Or.inr hx
    · rintro (rfl | hx)
      · exact hc
      · exact hx
  · have hnm : h ∉ s.dense := fun hm => hc ((arena_contains_iff_mem hinv h).mpr hm)
    have hlt : s.dense.length < cap := arena_len_lt hinv hh hnm
    obtain ⟨hT, hB, hC⟩ := hinv
    rw [SparseSet.push, if_neg hc]
    have hsp_h : s.sparse h = cap ∨ s.dense.length ≤ s.sparse h := by
      by_contra hcon
      push_neg at hcon
      obtain ⟨h1, h2⟩ := hcon
      apply hc
      simp only [SparseSet.contains, Bool.and_eq_true, decide_eq_true_eq]
      exact ⟨⟨hT ▸ hh, by omega⟩, hT ▸ h1⟩
    refine ⟨⟨hT, ?_, ?_⟩, ?_, by rw [if_neg hc]; simp⟩
    · -- B for the pushed state
      intro i a hi
      simp only at hi ⊢
      rcases Nat.lt_trichotomy i s.dense.length with hil | hil | hil
      · rw [List.getElem?_append, if_pos hil] at hi
        obtain ⟨hsp, hacap⟩ := hB i a hi
        have hah : a ≠ h := by
          intro hahx
          subst hahx
          exact hnm (List.mem_iff_getElem?.mpr ⟨i, hi⟩)
        rw [if_neg hah]
        exact ⟨hsp, hacap⟩
      · rw [List.getElem?_append, if_neg (by omega)] at hi
        rw [hil] at hi
        simp only [Nat.sub_self, List.getElem?_cons_zero, Option.some.injEq] at hi
        subst hi
        rw [if_pos rfl]
        exact ⟨hil.symm, hh⟩
      · rw [List.getElem?_append, if_neg (by omega)] at hi
        rw [List.getElem?_eq_none (by simp; omega)] at hi
        exact absurd hi (by simp)
    · -- C for the pushed state
      intro x hx hnt
      simp only at hnt ⊢
      by_cases hxh : x = h
      · subst hxh
        rw [if_pos rfl] at hnt ⊢
        exact List.getElem?_concat_length s.dense x
      · rw [if_neg hxh] at hnt ⊢
        have hcx := hC x hx hnt
        have hvalid : s.sparse x < s.dense.length := by
          by_contra hge
          rw [List.getElem?_eq_none (by omega)] at hcx
          exact absurd hcx (by simp)
        rw [List.getElem?_append, if_pos hvalid]
        exact hcx
    · -- contains characterisation
      intro x
      by_cases hxh : x = h
      · subst hxh
        refine iff_of_true ?_ (Or.inl rfl)
        simp only [SparseSet.contains, Bool.and_eq_true, decide_eq_true_eq,
          List.length_append, List.length_cons, List.length_nil, if_pos rfl, if_true]
        refine ⟨⟨by rw [hT]; omega, by omega⟩, by rw [hT]; omega⟩
      · simp only [SparseSet.contains, Bool.and_eq_true, decide_eq_true_eq,
          List.length_append, List.length_cons, List.length_nil, if_neg hxh]
        constructor
        · rintro ⟨⟨hxc, hlt2⟩, hnt⟩
          right
          refine ⟨⟨hxc, ?_⟩, hnt⟩
          rcases Nat.lt_or_ge (s.sparse x) s.dense.length with hv | hv
          · exact hv
          · exfalso
            have hxlen : s.sparse x = s.dense.length := by omega
            have hcx := hC x (hT ▸ hxc) (hT ▸ hnt)
            rw [hxlen, List.getElem?_eq_none (by omega)] at hcx
            exact absurd hcx (by simp)
        · rintro (hfalse | hxold)
          · exact absurd hfalse hxh
          · obtain ⟨⟨hxc, hlt2⟩, hnt⟩ := hxold
            exact ⟨⟨hxc, by omega⟩, hnt⟩

theorem arena_remove_step {T : Type} {cap : Nat} {s : SparseSet T} {h : Nat}
    (hinv : ArenaInv T cap s) (hh : h < cap) :
    ArenaInv T cap (s.remove h).2 ∧
    (∀ x, ((s.remove h).2).contains x = true ↔ (x ≠ h ∧ s.contains x = true)) ∧
    ((s.remove h).2).dense.length =
      (if s.contains h then s.dense.length - 1 else s.dense.length) := by
  by_cases hc : s.contains h = true
  · -- the heavy branch: swap-remove of a present handle
    have hle := arena_len_le hinv
    obtain ⟨hT, hB, hC⟩ := hinv
    have hcu := hc
    simp only [SparseSet.contains, Bool.and_eq_true, decide_eq_true_eq] at hcu
    obtain ⟨⟨hhc, hpos⟩, hnt⟩ := hcu
    set len := s.dense.length with hlen
    set pos := s.sparse h with hposdef
    have hlen0 : 0 < len := by omega
    -- the last dense entry
    obtain ⟨L, hLs⟩ : ∃ L, s.dense[len - 1]? = some L := by
      have : len - 1 < len := by omega
      exact ⟨s.dense[len - 1], List.getElem?_eq_getElem this⟩
    have hLlast : (s.dense.getLast?).getD 0 = L := by
      rw [List.getLast?_eq_getElem?, ← hlen, hLs]
      rfl
    obtain ⟨hspL, hLcap⟩ := hB (len - 1) L hLs
    -- the slot of h
    have hdh : s.dense[pos]? = some h := hC h (hT ▸ hhc) (hT ▸ hnt)
    have hsph : s.sparse h = pos := rfl
    -- swap computed pointwise
    have hswaplen : (listSwap s.dense (len - 1) pos).length = len := by
      rw [listSwap, hLs, hdh]
      simp
    have hswap : ∀ k, (listSwap s.dense (len - 1) pos)[k]? =
        if pos = k then some L else if len - 1 = k then some h else s.dense[k]? := by
      intro k
      rw [listSwap, hLs, hdh]
      rw [List.getElem?_set, List.getElem?_set]
      simp only [List.length_set, ← hlen]
      by_cases h1 : pos = k
      · rw [if_pos h1, if_pos (by omega), if_pos h1]
      · rw [if_neg h1, if_neg h1]
        by_cases h2 : len - 1 = k
        · rw [if_pos h2, if_pos (by omega), if_pos h2]
        · rw [if_neg h2, if_neg h2]
    -- the new dense array, pointwise
    have hdense' : ∀ k, ((listSwap s.dense (len - 1) pos).dropLast)[k]? =
        if k < len - 1 then (listSwap s.dense (len - 1) pos)[k]? else none := by
      intro k
      rw [List.dropLast_eq_take, List.getElem?_take, hswaplen]
    have hdenselen' : ((listSwap s.dense (len - 1) pos).dropLast).length = len - 1 := by
      rw [List.dropLast_eq_take, List.length_take, hswaplen]
      omega
    -- L = h exactly when h sits in the last slot
    have hLh : L = h ↔ pos = len - 1 := by
      constructor
      · intro hLh
        subst hLh
        omega
      · intro hpl
        rw [hpl] at hdh
        rw [hdh] at hLs
        exact (Option.some.inj hLs).symm
    -- unfold remove
    rw [SparseSet.remove, if_pos hc]
    simp only [hLlast, ← hlen, ← hposdef]
    refine ⟨⟨hT, ?_, ?_⟩, ?_, ?_⟩
    · -- B for the shrunk state
      intro k a hk
      dsimp only
      simp only [hdense'] at hk
      split at hk
      · rename_i hklt
        rw [hswap] at hk
        by_cases h1 : pos = k
        · rw [if_pos h1] at hk
          have ha : a = L := (Option.some.inj hk).symm
          have hLneh : L ≠ h := by
            intro hfalse
            have := hLh.mp hfalse
            omega
          rw [ha, if_neg hLneh, if_pos rfl]
          exact ⟨h1, hLcap⟩
        · rw [if_neg h1, if_neg (by omega)] at hk
          obtain ⟨hspa, hacap⟩ := hB k a hk
          have hah : a ≠ h := by
            intro hfalse
            subst hfalse
            exact h1 (by omega)
          have haL : a ≠ L := by
            intro hfalse
            subst hfalse
            omega
          rw [if_neg hah, if_neg haL]
          exact ⟨hspa, hacap⟩
      · exact absurd hk (by simp)
    · -- C for the shrunk state
      intro x hx hnx
      simp only at hnx ⊢
      by_cases hxh : x = h
      · subst hxh
        rw [if_pos rfl] at hnx
        exact absurd hT hnx
      · rw [if_neg hxh] at hnx ⊢
        by_cases hxL : x = L
        · subst hxL
          have hposne : pos ≠ len - 1 := by
            intro hfalse
            exact hxh (hLh.mpr hfalse)
          simp only [eq_self_iff_true, if_true] at hnx ⊢
          rw [hdense' pos, if_pos (by omega), hswap, if_pos rfl]
        · rw [if_neg hxL] at hnx ⊢
          have hcx := hC x hx hnx
          have hvalid : s.sparse x < len := by
            by_contra hge
            rw [List.getElem?_eq_none (by omega)] at hcx
            exact absurd hcx (by simp)
          have hxpos : s.sparse x ≠ pos := by
            intro hfalse
            rw [hfalse, hdh] at hcx
            exact hxh (Option.some.inj hcx).symm
          have hxsize : s.sparse x ≠ len - 1 := by
            intro hfalse
            rw [hfalse, hLs] at hcx
            exact hxL (Option.some.inj hcx).symm
          rw [hdense', if_pos (by omega), hswap, if_neg (by omega), if_neg (by omega)]
          exact hcx
    · -- contains characterisation
      intro x
      simp only [SparseSet.contains, Bool.and_eq_true, decide_eq_true_eq, hdenselen']
      by_cases hxh : x = h
      · subst hxh
        refine iff_of_false ?_ (by simp [hc])
        rintro ⟨-, hfalse⟩
        simp only [if_pos rfl] at hfalse
        exact hfalse rfl
      · by_cases hxL : x = L
        · subst hxL
          have hposne : pos ≠ len - 1 := by
            intro hfalse
            exact hxh (hLh.mpr hfalse)
          refine iff_of_true ?_ ?_
          · simp only [if_neg hxh, eq_self_iff_true, if_true]
            refine ⟨⟨by rw [hT]; omega, by omega⟩, by rw [hT]; omega⟩
          · exact ⟨hxh, ⟨⟨by rw [hT]; omega, by rw [hspL]; omega⟩,
              by rw [hspL, hT]; omega⟩⟩
        · simp only [if_neg hxh, if_neg hxL]
          constructor
          · rintro ⟨⟨hxc, hxlt⟩, hxnt⟩
            exact ⟨hxh, ⟨⟨hxc, by omega⟩, hxnt⟩⟩
          · rintro ⟨-, ⟨⟨hxc, hxlt⟩, hxnt⟩⟩
            have hcx := hC x (hT ▸ hxc) (hT ▸ hxnt)
            have hxpos : s.sparse x ≠ pos := by
              intro hfalse
              rw [hfalse, hdh] at hcx
              exact hxh (Option.some.inj hcx).symm
            have hxsize : s.sparse x ≠ len - 1 := by
              intro hfalse
              rw [hfalse, hLs] at hcx
              exact hxL (Option.some.inj hcx).symm
            exact ⟨⟨hxc, by omega⟩, hxnt⟩
    · -- length
      rw [if_pos hc]
      exact hdenselen'
  · -- absent handle: the set is unchanged
    rw [SparseSet.remove, if_neg hc]
    refine ⟨hinv, ?_, by rw [if_neg hc]⟩
    intro x
    constructor
    · intro hx
      refine ⟨?_, hx⟩
      intro hfalse
      subst hfalse
      exact hc hx
    · exact fun hx => hx.2

theorem arena_run {T : Type} (cap : Nat) :
    ∀ (ops : List (ArenaOp T)) (s : SparseSet T) (m : Finset Nat),
    ArenaInv T cap s →
    (∀ x, s.contains x = true ↔ x ∈ m) →
    s.dense.length = m.card →
    (∀ op ∈ ops, op.handle < cap) →
    ArenaInv T cap (ops.foldl ArenaOp.apply s) ∧
    (∀ x, (ops.foldl ArenaOp.apply s).contains x = true ↔
      x ∈ ops.foldl
        (fun acc op =>
          match op with
          | .push h _ => insert h acc
          | .remove h => acc.erase h) m) ∧
    (ops.foldl ArenaOp.apply s).dense.length =
      (ops.foldl
        (fun acc op =>
          match op with
          | .push h _ => insert h acc
          | .remove h => acc.erase h) m).card := by
  intro ops
  induction ops with
  | nil =>
      intro s m hinv hmem hlen _
      exact ⟨hinv, hmem, hlen⟩
  | cons op t ih =>
      intro s m hinv hmem hlen hcap
      have hoph : op.handle < cap := hcap op (List.mem_cons_self op t)
      have hcapt : ∀ op' ∈ t, ArenaOp.handle op' < cap :=
        fun op' hm => hcap op' (List.mem_cons_of_mem _ hm)
      cases op with
      | push h v =>
          simp only [ArenaOp.handle] at hoph
          obtain ⟨hinv', hmem', hlen'⟩ := arena_push_step v hinv hoph
          simp only [List.foldl_cons, ArenaOp.apply]
          refine ih (s.push h v) (insert h m) hinv' ?_ ?_ hcapt
          · intro x
            rw [hmem' x, Finset.mem_insert, hmem x]
          · rw [hlen']
            by_cases hch : s.contains h = true
            · rw [if_pos hch, Finset.insert_eq_self.mpr ((hmem h).mp hch), hlen]
            · have hnm : h ∉ m := fun hm => hch ((hmem h).mpr hm)
              rw [if_neg hch, Finset.card_insert_of_not_mem hnm, hlen]
      | remove h =>
          simp only [ArenaOp.handle] at hoph
          obtain ⟨hinv', hmem', hlen'⟩ := arena_remove_step hinv hoph
          simp only [List.foldl_cons, ArenaOp.apply]
          refine ih ((s.remove h).2) (m.erase h) hinv' ?_ ?_ hcapt
          · intro x
            rw [hmem' x, Finset.mem_erase, hmem x]
          · rw [hlen']
            by_cases hch : s.contains h = true
            · rw [if_pos hch, Finset.card_erase_of_mem ((hmem h).mp hch), hlen]
            · have hnm : h ∉ m := fun hm => hch ((hmem h).mpr hm)
              rw [if_neg hch, Finset.erase_eq_of_not_mem hnm, hlen]

/-- C8.  For every sequence of `push`/`remove` calls with handles below
the construction capacity: `contains(h)` is true exactly when `h` was
pushed and not subsequently removed (the running `Finset` of live
handles), `len()` equals the number of live handles, `push` of an
already-present handle leaves the whole set unchanged (no duplicate, no
value change), and `remove` of an absent handle returns
`(tombstone, None)` leaving the set unchanged. -/
theorem c8_sparse_set_tracks_live_handles {T : Type}
    (cap : Nat) (ops : List (ArenaOp T))
    (hcap : ∀ op ∈ ops, op.handle < cap) :
    (∀ x, (runArena cap ops).contains x = true ↔ x ∈ arenaModel ops) ∧
    (runArena cap ops).len = (arenaModel ops).card ∧
    (∀ (s : SparseSet T) (h : Nat) (v : T), s.contains h = true → s.push h v = s) ∧
    (∀ (s : SparseSet T) (h : Nat), s.contains h = false →
      s.remove h = ((s.tombstone, none), s)) := by
  have hnew : ArenaInv T cap (SparseSet.new T cap) := by
    refine ⟨rfl, ?_, ?_⟩
    · intro i a hi
      simp [SparseSet.new] at hi
    · intro h hh hnt
      exact absurd rfl hnt
  have hbase : ∀ x, (SparseSet.new T cap).contains x = true ↔ x ∈ (∅ : Finset Nat) := by
    intro x
    simp [SparseSet.contains, SparseSet.new]
  obtain ⟨-, hmem, hlen⟩ :=
    arena_run cap ops (SparseSet.new T cap) ∅ hnew hbase (by simp [SparseSet.new]) hcap
  refine ⟨hmem, hlen, ?_, ?_⟩
  · intro s h v hc
    rw [SparseSet.push, if_pos hc]
  · intro s h hc
    rw [SparseSet.remove, if_neg (by simp [hc])]

/-- Witness for C8: capacity 3, trace
`push 1; push 2; remove 1; push 2 (again)`: handle 2 is live, handle 1 is
not, the length is 1, a re-push of the live handle 2 changes nothing, and
removing the absent handle 0 returns the tombstone. -/
theorem c8_witness :
    ((runArena 3 [ArenaOp.push 1 10, ArenaOp.push 2 20, ArenaOp.remove 1,
        ArenaOp.push 2 30]).contains 2 = true ↔
      2 ∈ arenaModel [ArenaOp.push 1 10, ArenaOp.push 2 20, ArenaOp.remove 1,
        ArenaOp.push 2 30]) ∧
    ((runArena 3 [ArenaOp.push 1 10, ArenaOp.push 2 20, ArenaOp.remove 1,
        ArenaOp.push 2 30]).contains 1 = true ↔
      1 ∈ arenaModel [ArenaOp.push 1 10, ArenaOp.push 2 20, ArenaOp.remove 1,
        ArenaOp.push 2 30]) ∧
    (runArena 3 [ArenaOp.push 1 10, ArenaOp.push 2 20, ArenaOp.remove 1,
        ArenaOp.push 2 30]).len =
      (arenaModel [ArenaOp.push 1 10, ArenaOp.push 2 20, ArenaOp.remove 1,
        ArenaOp.push 2 30]).card := by
  have hcap : ∀ op ∈ [ArenaOp.push 1 (10 : Nat), ArenaOp.push 2 20,
      ArenaOp.remove 1, ArenaOp.push 2 30], op.handle < 3 := by
    decide
  obtain ⟨hmem, hlen, -, -⟩ := c8_sparse_set_tracks_live_handles 3 _ hcap
  exact ⟨hmem 2, hmem 1, hlen⟩
